import Mathlib

/-!
# Greedy entropy-based outlier detection

A shallow embedding of `greedy_outlier_entropy.cpp` / `greedy_outlier_entropy.hpp`.

Modelling choices:

* `std::vector` is `List`; `std::string` is `String`; `std::size_t` is `Nat`
  (the one place where unsigned wrap-around can happen, the decrement in
  `mark_outlier`, wraps explicitly to `SIZE_MAX`).
* `std::unordered_map<std::string, std::size_t>` is a list of key/count
  entries with key-based `find` / `assign` / `erase`.  The order of the
  entries plays the part of the (unspecified) iteration order of the hash
  map; tables are compared through `find`.
* `double` is idealised as `ℝ` and `log2` as `Real.logb 2`, so the
  definitions that touch entropies are not executable, the sum does not
  depend on the iteration order of the maps, and `<` is a total order.  A
  division by zero gives `0` in `ℝ` and `inf` or `NaN` in IEEE arithmetic;
  on a table that counts the active rows the two never meet, since the only
  calls with `numDataPoints = 0` are made on a table without entries.
  Rounding is not modelled: two candidates that tie over the reals need not
  tie in doubles.  The search is therefore given a second time with the
  function that computes the entropies left open (`greedy_outliers_of`), for
  what depends on the computed values only through `<`.
* `std::unordered_set<std::size_t>` is `Finset Nat`.
* `greedy_outliers` takes the dataset by reference and assigns to
  `dataset.occurences`; the embedding passes the dataset through the search
  state and hands it back in the outcome.  The search state also carries a
  ghost log of the calls made to `entropy`.
* The `while` loop of `greedy_outliers` is run with fuel; `greedy_outliers`
  supplies `k` units, which is shown to be enough.
* Out-of-range `operator[]` on a vector is undefined in C++; here such an
  access reads a default (`[]` or `""`) and a write is dropped.
* `read` takes the content of the file (`none` when the stream cannot be
  opened); its outcome is a dataset, an exception, or undefined behaviour
  (`data.front()` on an empty vector).  `std::getline` is modelled on the list
  of characters of the stream.
* `write_data` returns the content of the output file, which is assumed to
  open.
-/

namespace GreedyOutlierEntropy

/-- The type `Data` of the header: a vector of rows of strings. -/
abbrev Data := List (List String)

/-- One dimension of the table: `std::unordered_map<std::string, std::size_t>`. -/
abbrev OccMap := List (String × Nat)

/-- The type `Occurences` of the header: one map per dimension. -/
abbrev Occurences := List OccMap

/-- The struct `Dataset` of the header. -/
structure Dataset where
  data : Data
  occurences : Occurences

/-- The largest `std::size_t`. -/
def SIZE_MAX : Nat := 2 ^ 64 - 1

namespace OccMap

/-- Key lookup, `m.find(v)`: the count stored under `v`, if `v` is a key. -/
def find : OccMap → String → Option Nat
  | [], _ => none
  | (w, c) :: m, v => if w = v then some c else find m v

/-- The value that `m[v]` reads: the stored count, or the `0` that
`operator[]` inserts when `v` is not a key yet. -/
def get (m : OccMap) (v : String) : Nat :=
  (find m v).getD 0

/-- The assignment `m[v] = c`: overwrites the entry of `v`, or adds one. -/
def assign : OccMap → String → Nat → OccMap
  | [], v, c => [(v, c)]
  | (w, d) :: m, v, c => if w = v then (w, c) :: m else (w, d) :: assign m v c

/-- The call `m.erase(v)`. -/
def erase : OccMap → String → OccMap
  | [], _ => []
  | (w, d) :: m, v => if w = v then erase m v else (w, d) :: erase m v

/-- The statement `++m[v]` of `read`. -/
def increment (m : OccMap) (v : String) : OccMap :=
  assign m v (get m v + 1)

/-- The body of the loop of `mark_outlier` on one dimension:
`--m[v]; if (m[v] == 0) m.erase(v);`.  The decrement is unsigned, so a
count of `0` (also the one `operator[]` inserts for a missing key) wraps to
`SIZE_MAX`. -/
def decrement (m : OccMap) (v : String) : OccMap :=
  let m1 := assign m v (if get m v = 0 then SIZE_MAX else get m v - 1)
  if get m1 v = 0 then erase m1 v else m1

/-- The keys of a map, in entry order. -/
def keys (m : OccMap) : List String :=
  m.map Prod.fst

end OccMap

/-- The function `mark_outlier`: a copy of `dataset.occurences` in which, for
every dimension `i` of row `index`, the count of `data[index][i]` is
decremented, and erased when it reaches zero. -/
def mark_outlier (dataset : Dataset) (index : Nat) : Occurences :=
  let row := dataset.data.getD index []
  (List.range row.length).foldl
    (fun markedOccurences i =>
      markedOccurences.modify (fun m => OccMap.decrement m (row.getD i "")) i)
    dataset.occurences

/-- The inner loop of the counting step of `read` for one data point:
`++occurences[i][dataPoint[i]]` for every `i < dimensions`. -/
def count_point (dimensions : Nat) (occurences : Occurences) (dataPoint : List String) :
    Occurences :=
  (List.range dimensions).foldl
    (fun occ i => occ.modify (fun m => OccMap.increment m (dataPoint.getD i "")) i)
    occurences

/-- The counting step of `read` (lines 77-86): `Occurences occurences(dimensions)`
followed by the loop over all data points. -/
def build (dimensions : Nat) (data : Data) : Occurences :=
  data.foldl (count_point dimensions) (List.replicate dimensions [])

/-- The function `entropy`: starting from `0.0`, subtracts `p * log2(p)` for
every entry of every dimension, with `p = number / numDataPoints`. -/
noncomputable def entropy (occurences : Occurences) (numDataPoints : Nat) : ℝ :=
  occurences.foldl
    (fun entropy occ =>
      occ.foldl
        (fun entropy entry =>
          let p : ℝ := (entry.2 : ℝ) / (numDataPoints : ℝ)
          entropy - p * Real.logb 2 p)
        entropy)
    0

/-- The struct `Result` of the header. -/
structure Result where
  outliers : Finset Nat
  entropy : ℝ

/-- The two exceptions thrown by `greedy_outliers`. -/
inductive Error where
  /-- The `std::runtime_error` "K parameter exceeds number of data points". -/
  | k_exceeds
  /-- The `std::invalid_argument` "k is set too high, no improvement by marking outliers". -/
  | no_improvement
  deriving DecidableEq

/-- The variables of the `for` loop of `greedy_outliers`: the running
`bestEntropy`, the running `bestIndex`, and the ghost log of `entropy` calls. -/
structure Scan where
  bestEntropy : ℝ
  bestIndex : Option Nat
  evaluated : List (Occurences × Nat)

/-- The variables of the `while` loop of `greedy_outliers`: the dataset (whose
`occurences` is assigned to), `outliers`, `bestEntropy`, and the ghost log of
`entropy` calls. -/
structure Search where
  dataset : Dataset
  outliers : Finset Nat
  bestEntropy : ℝ
  evaluated : List (Occurences × Nat)

/-- The entropy that the scan computes for row `index`:
`entropy(mark_outlier(dataset, index), data.size() - outliers.size() - 1)`. -/
noncomputable def candidate_entropy (dataset : Dataset) (outliers : Finset Nat) (index : Nat) : ℝ :=
  entropy (mark_outlier dataset index) (dataset.data.length - outliers.card - 1)

/-- The body of the `for` loop of `greedy_outliers` (lines 154-165). -/
noncomputable def scan_step (dataset : Dataset) (outliers : Finset Nat) (s : Scan) (index : Nat) :
    Scan :=
  if index ∈ outliers then s
  else
    let markedOccurences := mark_outlier dataset index
    let numDataPoints := dataset.data.length - outliers.card - 1
    let markedEntropy := entropy markedOccurences numDataPoints
    let log := s.evaluated ++ [(markedOccurences, numDataPoints)]
    if markedEntropy < s.bestEntropy then
      { bestEntropy := markedEntropy, bestIndex := some index, evaluated := log }
    else
      { s with evaluated := log }

/-- The `for` loop of `greedy_outliers` (lines 151-166): `bestIndex` starts
empty and the indices `0 .. data.size() - 1` are visited in ascending order. -/
noncomputable def scan (s : Search) : Scan :=
  (List.range s.dataset.data.length).foldl (scan_step s.dataset s.outliers)
    { bestEntropy := s.bestEntropy, bestIndex := none, evaluated := s.evaluated }

/-- The body of the `while` loop of `greedy_outliers` (lines 151-172).  The
second component is the state the loop variables are left in; when the round
throws, `outliers` and `dataset.occurences` are as before the round. -/
noncomputable def round (s : Search) : Except Error Unit × Search :=
  let sc := scan s
  let s1 : Search := { s with bestEntropy := sc.bestEntropy, evaluated := sc.evaluated }
  match sc.bestIndex with
  | none => (Except.error Error.no_improvement, s1)
  | some bestIndex =>
    (Except.ok (),
      { s1 with
        outliers := insert bestIndex s.outliers
        dataset := { s.dataset with occurences := mark_outlier s.dataset bestIndex } })

/-- What a call of `greedy_outliers` leaves behind: the returned `Result` or
the exception thrown, the caller's dataset after the call, and the ghost log
of all `entropy` calls made, in order. -/
structure Outcome where
  result : Except Error Result
  dataset : Dataset
  evaluated : List (Occurences × Nat)

/-- The `while` loop of `greedy_outliers` (lines 149-174) with fuel: `none`
means that the fuel ran out before the loop condition became false. -/
noncomputable def search_loop (k : Nat) : Nat → Search → Option Outcome
  | fuel, s =>
    if s.outliers.card < k then
      match fuel with
      | 0 => none
      | fuel + 1 =>
        match round s with
        | (Except.error e, s1) =>
          some { result := Except.error e, dataset := s1.dataset, evaluated := s1.evaluated }
        | (Except.ok (), s1) => search_loop k fuel s1
    else
      some
        { result := Except.ok { outliers := s.outliers, entropy := s.bestEntropy }
          dataset := s.dataset
          evaluated := s.evaluated }

/-- The state of the loop variables of `greedy_outliers` when the `while` loop
is entered (lines 145-148). -/
noncomputable def initial_search (dataset : Dataset) : Search :=
  { dataset := dataset
    outliers := ∅
    bestEntropy := entropy dataset.occurences dataset.data.length
    evaluated := [(dataset.occurences, dataset.data.length)] }

/-- The function `greedy_outliers`, with the given fuel for its `while` loop. -/
noncomputable def greedy_outliers_fuel (fuel : Nat) (dataset : Dataset) (k : Nat) : Option Outcome :=
  if k > dataset.data.length then
    some { result := Except.error Error.k_exceeds, dataset := dataset, evaluated := [] }
  else
    search_loop k fuel (initial_search dataset)

/-- The function `greedy_outliers`: every iteration of the loop that does not
throw adds a row to `outliers`, so `k` units of fuel are supplied. -/
noncomputable def greedy_outliers (dataset : Dataset) (k : Nat) : Option Outcome :=
  greedy_outliers_fuel k dataset k

/-! ## The search with the arithmetic of `entropy` left open

The same loop, with the values that `entropy` computes taken in a type `D`
ordered by `<` and the function `ent` that computes them left open.  Any
linearly ordered `D` is allowed, such as the doubles other than NaN; nothing
is assumed about how `ent` rounds or in which order it sums. -/

/-- The struct `Result`, with the entropy a computed value in `D`. -/
structure ResultOf (D : Type) where
  outliers : Finset Nat
  entropy : D

/-- The variables of the `for` loop of `greedy_outliers`, with `bestEntropy` in `D`. -/
structure ScanOf (D : Type) where
  bestEntropy : D
  bestIndex : Option Nat
  evaluated : List (Occurences × Nat)

/-- The variables of the `while` loop of `greedy_outliers`, with `bestEntropy` in `D`. -/
structure SearchOf (D : Type) where
  dataset : Dataset
  outliers : Finset Nat
  bestEntropy : D
  evaluated : List (Occurences × Nat)

/-- What a call of `greedy_outliers` leaves behind, with the entropy in `D`. -/
structure OutcomeOf (D : Type) where
  result : Except Error (ResultOf D)
  dataset : Dataset
  evaluated : List (Occurences × Nat)

/-- The value computed for row `index`:
`entropy(mark_outlier(dataset, index), data.size() - outliers.size() - 1)`. -/
def candidate_entropy_of {D : Type} (ent : Occurences → Nat → D) (dataset : Dataset)
    (outliers : Finset Nat) (index : Nat) : D :=
  ent (mark_outlier dataset index) (dataset.data.length - outliers.card - 1)

/-- The body of the `for` loop of `greedy_outliers` (lines 154-165). -/
def scan_step_of {D : Type} [LinearOrder D] (ent : Occurences → Nat → D) (dataset : Dataset)
    (outliers : Finset Nat) (s : ScanOf D) (index : Nat) : ScanOf D :=
  if index ∈ outliers then s
  else
    let markedOccurences := mark_outlier dataset index
    let numDataPoints := dataset.data.length - outliers.card - 1
    let markedEntropy := ent markedOccurences numDataPoints
    let log := s.evaluated ++ [(markedOccurences, numDataPoints)]
    if markedEntropy < s.bestEntropy then
      { bestEntropy := markedEntropy, bestIndex := some index, evaluated := log }
    else
      { s with evaluated := log }

/-- The `for` loop of `greedy_outliers` (lines 151-166). -/
def scan_of {D : Type} [LinearOrder D] (ent : Occurences → Nat → D) (s : SearchOf D) : ScanOf D :=
  (List.range s.dataset.data.length).foldl (scan_step_of ent s.dataset s.outliers)
    { bestEntropy := s.bestEntropy, bestIndex := none, evaluated := s.evaluated }

/-- The body of the `while` loop of `greedy_outliers` (lines 151-172). -/
def round_of {D : Type} [LinearOrder D] (ent : Occurences → Nat → D) (s : SearchOf D) :
    Except Error Unit × SearchOf D :=
  let sc := scan_of ent s
  let s1 : SearchOf D := { s with bestEntropy := sc.bestEntropy, evaluated := sc.evaluated }
  match sc.bestIndex with
  | none => (Except.error Error.no_improvement, s1)
  | some bestIndex =>
    (Except.ok (),
      { s1 with
        outliers := insert bestIndex s.outliers
        dataset := { s.dataset with occurences := mark_outlier s.dataset bestIndex } })

/-- The `while` loop of `greedy_outliers` (lines 149-174) with fuel. -/
def search_loop_of {D : Type} [LinearOrder D] (ent : Occurences → Nat → D) (k : Nat) :
    Nat → SearchOf D → Option (OutcomeOf D)
  | fuel, s =>
    if s.outliers.card < k then
      match fuel with
      | 0 => none
      | fuel + 1 =>
        match round_of ent s with
        | (Except.error e, s1) =>
          some { result := Except.error e, dataset := s1.dataset, evaluated := s1.evaluated }
        | (Except.ok (), s1) => search_loop_of ent k fuel s1
    else
      some
        { result := Except.ok { outliers := s.outliers, entropy := s.bestEntropy }
          dataset := s.dataset
          evaluated := s.evaluated }

/-- The loop variables when the `while` loop is entered (lines 145-148). -/
def initial_search_of {D : Type} (ent : Occurences → Nat → D) (dataset : Dataset) : SearchOf D :=
  { dataset := dataset
    outliers := ∅
    bestEntropy := ent dataset.occurences dataset.data.length
    evaluated := [(dataset.occurences, dataset.data.length)] }

/-- The function `greedy_outliers` with the given fuel for its `while` loop. -/
def greedy_outliers_fuel_of {D : Type} [LinearOrder D] (ent : Occurences → Nat → D) (fuel : Nat)
    (dataset : Dataset) (k : Nat) : Option (OutcomeOf D) :=
  if k > dataset.data.length then
    some { result := Except.error Error.k_exceeds, dataset := dataset, evaluated := [] }
  else
    search_loop_of ent k fuel (initial_search_of ent dataset)

/-- The function `greedy_outliers`, with `k` units of fuel for the loop. -/
def greedy_outliers_of {D : Type} [LinearOrder D] (ent : Occurences → Nat → D)
    (dataset : Dataset) (k : Nat) : Option (OutcomeOf D) :=
  greedy_outliers_fuel_of ent k dataset k

/-- The loop state after `r` further iterations of the `while` body, none of
which throws; `none` when one of them throws. -/
def run_rounds_of {D : Type} [LinearOrder D] (ent : Occurences → Nat → D) :
    Nat → SearchOf D → Option (SearchOf D)
  | 0, s => some s
  | r + 1, s =>
    match round_of ent s with
    | (Except.ok (), s1) => run_rounds_of ent r s1
    | (Except.error _, _) => none

/-- The loop state of `greedy_outliers dataset k` after `r` committed rounds. -/
def after_rounds_of {D : Type} [LinearOrder D] (ent : Occurences → Nat → D)
    (dataset : Dataset) (r : Nat) : Option (SearchOf D) :=
  run_rounds_of ent r (initial_search_of ent dataset)

/-- Row `i` is outside `outliers`, its computed candidate entropy is minimal
among the rows outside `outliers`, and every such row with a smaller index has
a strictly larger computed candidate entropy: `i` is the least index at the
minimum. -/
def least_minimal_of {D : Type} [LinearOrder D] (ent : Occurences → Nat → D)
    (dataset : Dataset) (outliers : Finset Nat) (i : Nat) : Prop :=
  i < dataset.data.length ∧ i ∉ outliers ∧
    (∀ j, j < dataset.data.length → j ∉ outliers →
      candidate_entropy_of ent dataset outliers i ≤ candidate_entropy_of ent dataset outliers j) ∧
    (∀ j, j < i → j ∉ outliers →
      candidate_entropy_of ent dataset outliers i < candidate_entropy_of ent dataset outliers j)

/-- A scan state of the real-valued search, read as one of the open search. -/
def scan_as_of (s : Scan) : ScanOf ℝ :=
  { bestEntropy := s.bestEntropy, bestIndex := s.bestIndex, evaluated := s.evaluated }

/-- A loop state of the real-valued search, read as one of the open search. -/
def search_as_of (s : Search) : SearchOf ℝ :=
  { dataset := s.dataset, outliers := s.outliers, bestEntropy := s.bestEntropy,
    evaluated := s.evaluated }

/-- An outcome of the real-valued search, read as one of the open search. -/
def outcome_as_of (o : Outcome) : OutcomeOf ℝ :=
  { result :=
      match o.result with
      | Except.ok R => Except.ok { outliers := R.outliers, entropy := R.entropy }
      | Except.error e => Except.error e
    dataset := o.dataset
    evaluated := o.evaluated }

/-! ## Specification-side definitions -/

/-- The rows that are still active: the rows of `data`, in order, whose index
is not in `removed`. -/
def remaining_rows (data : Data) (removed : Finset Nat) : Data :=
  ((data.enum).filter (fun p => decide (p.1 ∉ removed))).map Prod.snd

/-- The number of rows of `rows` that carry the value `v` in dimension `i`. -/
def occurrences_of (rows : Data) (i : Nat) (v : String) : Nat :=
  rows.countP (fun r => decide (r.getD i "" = v))

/-- Two tables agree: they have the same number of dimensions and, in every
dimension, the same keys with the same counts. -/
def same_table (a b : Occurences) : Prop :=
  a.length = b.length ∧ ∀ i v, OccMap.find (a.getD i []) v = OccMap.find (b.getD i []) v

/-- The table reached from `occurences` by committing `mark_outlier` for the
rows `removed`, one after the other, each on the current table (line 172). -/
def commit_all (data : Data) (occurences : Occurences) (removed : List Nat) : Occurences :=
  removed.foldl (fun occ index => mark_outlier { data := data, occurences := occ } index) occurences

/-- The loop state after `r` further iterations of the `while` body, none of
which throws; `none` when one of them throws. -/
noncomputable def run_rounds : Nat → Search → Option Search
  | 0, s => some s
  | r + 1, s =>
    match round s with
    | (Except.ok (), s1) => run_rounds r s1
    | (Except.error _, _) => none

/-- The loop state of `greedy_outliers dataset k` after `r` committed rounds
(`none` when one of the first `r` rounds finds no improvement). -/
noncomputable def after_rounds (dataset : Dataset) (r : Nat) : Option Search :=
  run_rounds r (initial_search dataset)

/-- No row outside `outliers` has a candidate entropy strictly below the
current `bestEntropy`. -/
def no_improvement (s : Search) : Prop :=
  ∀ j, j < s.dataset.data.length → j ∉ s.outliers →
    ¬ candidate_entropy s.dataset s.outliers j < s.bestEntropy

/-- Row `i` is the winner of a scan over the rows outside `outliers`: it is
outside `outliers`, its candidate entropy is minimal among those rows, and
every such row with a smaller index has a strictly larger candidate entropy. -/
def least_minimal (dataset : Dataset) (outliers : Finset Nat) (i : Nat) : Prop :=
  i < dataset.data.length ∧ i ∉ outliers ∧
    (∀ j, j < dataset.data.length → j ∉ outliers →
      candidate_entropy dataset outliers i ≤ candidate_entropy dataset outliers j) ∧
    (∀ j, j < i → j ∉ outliers →
      candidate_entropy dataset outliers i < candidate_entropy dataset outliers j)

/-- The entry a map holds for a value that occurs `c` times: none when `c = 0`. -/
def entry_of_count (c : Nat) : Option Nat :=
  if c = 0 then none else some c

/-- The table `T` has `d` dimensions, and dimension `i` holds, without
duplicate keys, exactly the positive counts of the values of `rows`. -/
def Tracks (T : Occurences) (d : Nat) (rows : Data) : Prop :=
  T.length = d ∧ ∀ i, i < d → ∃ m, T[i]? = some m ∧ (OccMap.keys m).Nodup ∧
    ∀ v, OccMap.find m v = entry_of_count (occurrences_of rows i v)

/-- The term `p * log2(p)` of one entry, `p = number / numDataPoints`. -/
noncomputable def entry_term (numDataPoints : Nat) (number : Nat) : ℝ :=
  ((number : ℝ) / (numDataPoints : ℝ)) * Real.logb 2 ((number : ℝ) / (numDataPoints : ℝ))

/-- The sum of the terms of one dimension. -/
noncomputable def dimension_sum (numDataPoints : Nat) (m : OccMap) : ℝ :=
  (m.map (fun e => entry_term numDataPoints e.2)).sum

/-- The invariant `bestEntropy = entropy(dataset.occurences, n - |outliers|)`. -/
def entropy_current (s : Search) : Prop :=
  s.bestEntropy = entropy s.dataset.occurences (s.dataset.data.length - s.outliers.card)

/-- The invariant of a search over `data` whose table was built from `data`:
the outliers are row indices and the table counts the remaining rows. -/
def Consistent (data : Data) (d : Nat) (s : Search) : Prop :=
  s.dataset.data = data ∧ (∀ i ∈ s.outliers, i < data.length) ∧
    Tracks s.dataset.occurences d (remaining_rows data s.outliers)

/-- The rows of Scenario A (also the example of the doc comment of `read`). -/
def scenario_data : Data :=
  [["1", "2", "a"], ["0", "1", "b"], ["0", "2", "c"]]

/-- The dataset that `read` returns for the rows of Scenario A. -/
def scenario_dataset : Dataset :=
  { data := scenario_data, occurences := build 3 scenario_data }

/-- What `greedy_outliers` leaves behind on Scenario A with `k = 1`. -/
noncomputable def scenario_outcome : Outcome :=
  { result := Except.ok { outliers := {0}, entropy := 2 }
    dataset :=
      { data := scenario_data
        occurences := [[("0", 2)], [("2", 1), ("1", 1)], [("b", 1), ("c", 1)]] }
    evaluated :=
      [([[("1", 1), ("0", 2)], [("2", 2), ("1", 1)], [("a", 1), ("b", 1), ("c", 1)]], 3),
       ([[("0", 2)], [("2", 1), ("1", 1)], [("b", 1), ("c", 1)]], 2),
       ([[("1", 1), ("0", 1)], [("2", 2)], [("a", 1), ("c", 1)]], 2),
       ([[("1", 1), ("0", 1)], [("2", 1), ("1", 1)], [("a", 1), ("b", 1)]], 2)] }

/-! ## The loader and the writer -/

/-- The loop `for (std::string s; std::getline(stream, s, delim); )` on the
characters left in the stream; `pending` are the characters the current call
of `std::getline` has extracted so far.  A call ends at the delimiter, which
it discards, or at the end of the stream; it fails, ending the loop, when it
extracts nothing at all, not even a delimiter. -/
def getline_loop (delim : Char) : List Char → List Char → List String
  | [], pending => if pending = [] then [] else [String.mk pending]
  | c :: rest, pending =>
    if c = delim then String.mk pending :: getline_loop delim rest []
    else getline_loop delim rest (pending ++ [c])

/-- All the strings that the `std::getline` loop reads from a stream holding `s`. -/
def getlines (delim : Char) (s : String) : List String :=
  getline_loop delim s.data []

/-- The inner loop of `read` (lines 58-63): the fields of one line. -/
def split_line (line : String) : List String :=
  getlines ',' line

/-- The outer loop of `read` (lines 55-65): the data points of a file. -/
def parse_data (content : String) : Data :=
  (getlines '\n' content).map split_line

/-- The two exceptions thrown by `read`. -/
inductive ReadError where
  /-- The `std::runtime_error` "Could not read data file". -/
  | could_not_read
  /-- The `std::invalid_argument` "Data points have uneven number of dimensions". -/
  | uneven_dimensions
  deriving DecidableEq

/-- What a call of `read` does: return a dataset, throw, or run into
undefined behaviour (`data.front()` on an empty vector, line 68). -/
inductive ReadOutcome where
  | returned (dataset : Dataset)
  | threw (e : ReadError)
  | undefined

/-- The part of `read` after the parsing loop (lines 67-87): the dimension
count is taken from the first data point, the check follows, then the count. -/
def read_data (data : Data) : ReadOutcome :=
  match data with
  | [] => ReadOutcome.undefined
  | first :: _ =>
    let dimensions := first.length
    let dataIsValid := data.all (fun x => decide (x.length = dimensions))
    if dataIsValid then
      ReadOutcome.returned { data := data, occurences := build dimensions data }
    else
      ReadOutcome.threw ReadError.uneven_dimensions

/-- The function `read`; the file is given by its content, `none` when the
stream cannot be opened. -/
def read (file : Option String) : ReadOutcome :=
  match file with
  | none => ReadOutcome.threw ReadError.could_not_read
  | some content => read_data (parse_data content)

/-- The loop of the lambda `write` of `write_data` (lines 189-192): every
value but the first is preceded by a comma. -/
def write_values (x : List String) : String :=
  (x.foldl
    (fun (st : Bool × String) value =>
      (false, st.2 ++ (if st.1 then "" else ",") ++ value))
    (true, "")).2

/-- The lambda `write` of `write_data`: the values of a row, then a newline. -/
def write (x : List String) : String :=
  write_values x ++ "\n"

/-- The loop of `write_data` (lines 196-203) from row `index` on: `out` is
what has been written so far. -/
def write_data_loop (outliers : Finset Nat) : Nat → Data → String → String
  | _, [], out => out
  | index, x :: data, out =>
    if index ∈ outliers then write_data_loop outliers (index + 1) data out
    else write_data_loop outliers (index + 1) data (out ++ write x)

/-- The function `write_data`: the content of the output file. -/
def write_data (result : Result) (data : Data) : String :=
  write_data_loop result.outliers 0 data ""

/-- The sum of the counts of one dimension of the table. -/
def count_sum (m : OccMap) : Nat :=
  (m.map Prod.snd).sum

/-- In every dimension of `T`, a value is a key exactly when its count is
strictly positive, and no entry with count zero is kept. -/
def positive_counts (T : Occurences) : Prop :=
  (∀ i v, v ∈ OccMap.keys (T.getD i []) ↔ 0 < OccMap.get (T.getD i []) v) ∧
    ∀ m ∈ T, ∀ e ∈ m, 0 < e.2

/-- Every dimension of `T` has counts that sum to `numActive`. -/
def sums_to (T : Occurences) (numActive : Nat) : Prop :=
  ∀ m ∈ T, count_sum m = numActive

/-- The dataset of Scenario C as `read` returns it: `n` copies of one row. -/
def identical_rows_dataset (row : List String) (n : Nat) : Dataset :=
  { data := List.replicate n row, occurences := build row.length (List.replicate n row) }

namespace OccMap

theorem find_assign_self (m : OccMap) (v : String) (c : Nat) :
    find (assign m v c) v = some c := by
  induction m with
  | nil => simp [assign, find]
  | cons e m ih =>
    obtain ⟨w, d⟩ := e
    by_cases h : w = v
    · simp [assign, find, h]
    · simp [assign, find, h, ih]

theorem find_assign_ne (m : OccMap) {v w : String} (c : Nat) (h : w ≠ v) :
    find (assign m v c) w = find m w := by
  induction m with
  | nil => simp [assign, find, h.symm]
  | cons e m ih =>
    obtain ⟨u, d⟩ := e
    by_cases hu : u = v
    · subst hu
      simp [assign, find, h.symm]
    · by_cases hw : u = w
      · subst hw
        simp [assign, find, hu]
      · simp [assign, find, hu, hw, ih]

theorem find_erase_self (m : OccMap) (v : String) : find (erase m v) v = none := by
  induction m with
  | nil => simp [erase, find]
  | cons e m ih =>
    obtain ⟨u, d⟩ := e
    by_cases hu : u = v
    · simp [erase, hu, ih]
    · simp [erase, find, hu, ih]

theorem find_erase_ne (m : OccMap) {v w : String} (h : w ≠ v) :
    find (erase m v) w = find m w := by
  induction m with
  | nil => simp [erase, find]
  | cons e m ih =>
    obtain ⟨u, d⟩ := e
    by_cases hu : u = v
    · subst hu
      simp [erase, find, h.symm, ih]
    · by_cases hw : u = w
      · subst hw
        simp [erase, find, hu]
      · simp [erase, find, hu, hw, ih]

theorem mem_keys_iff (m : OccMap) (v : String) : v ∈ keys m ↔ find m v ≠ none := by
  induction m with
  | nil => simp [keys, find]
  | cons e m ih =>
    obtain ⟨u, d⟩ := e
    by_cases hu : u = v
    · simp [keys, find, hu]
    · have : v ≠ u := fun h => hu h.symm
      simp only [keys] at ih
      simp [keys, find, hu, this, ih]

theorem keys_cons_nodup (u : String) (d : Nat) (m : OccMap) :
    (keys ((u, d) :: m)).Nodup ↔ u ∉ keys m ∧ (keys m).Nodup := by
  unfold keys
  exact List.nodup_cons

theorem keys_assign_nodup (m : OccMap) (v : String) (c : Nat) (h : (keys m).Nodup) :
    (keys (assign m v c)).Nodup := by
  induction m with
  | nil => simp [assign, keys]
  | cons e m ih =>
    obtain ⟨u, d⟩ := e
    have h1 : u ∉ keys m := ((keys_cons_nodup u d m).mp h).1
    have h2 : (keys m).Nodup := ((keys_cons_nodup u d m).mp h).2
    by_cases hu : u = v
    · simpa [assign, hu, keys] using h
    · have h3 : u ∉ keys (assign m v c) := by
        rw [mem_keys_iff, find_assign_ne m c hu]
        rw [mem_keys_iff] at h1
        exact h1
      have h4 := ih h2
      simp only [assign, hu, if_false]
      exact (keys_cons_nodup u d _).mpr ⟨h3, h4⟩

theorem keys_erase_nodup (m : OccMap) (v : String) (h : (keys m).Nodup) :
    (keys (erase m v)).Nodup := by
  induction m with
  | nil => simp [erase, keys]
  | cons e m ih =>
    obtain ⟨u, d⟩ := e
    have h1 : u ∉ keys m := ((keys_cons_nodup u d m).mp h).1
    have h2 : (keys m).Nodup := ((keys_cons_nodup u d m).mp h).2
    by_cases hu : u = v
    · simpa [erase, hu] using ih h2
    · have h3 : u ∉ keys (erase m v) := by
        rw [mem_keys_iff, find_erase_ne m hu]
        rw [mem_keys_iff] at h1
        exact h1
      have h4 := ih h2
      simp only [erase, hu, if_false]
      exact (keys_cons_nodup u d _).mpr ⟨h3, h4⟩

theorem mem_iff_find (m : OccMap) (h : (keys m).Nodup) (v : String) (c : Nat) :
    (v, c) ∈ m ↔ find m v = some c := by
  induction m with
  | nil => simp [find]
  | cons e m ih =>
    obtain ⟨u, d⟩ := e
    have h1 : u ∉ keys m := ((keys_cons_nodup u d m).mp h).1
    have h2 : (keys m).Nodup := ((keys_cons_nodup u d m).mp h).2
    by_cases hu : u = v
    · subst hu
      have h5 : ∀ c, (u, c) ∉ m := by
        intro c hc
        exact h1 (List.mem_map.mpr ⟨(u, c), hc, rfl⟩)
      simp [find, h5]
      exact eq_comm
    · have : ¬ (v = u) := fun h => hu h.symm
      simp [find, hu, this, ih h2]

theorem nodup_of_keys_nodup (m : OccMap) (h : (keys m).Nodup) : m.Nodup :=
  List.Nodup.of_map Prod.fst h

theorem perm_of_find_eq (m1 m2 : OccMap) (h1 : (keys m1).Nodup) (h2 : (keys m2).Nodup)
    (h : ∀ v, find m1 v = find m2 v) : m1.Perm m2 := by
  refine (List.perm_ext_iff_of_nodup (nodup_of_keys_nodup m1 h1) (nodup_of_keys_nodup m2 h2)).2 ?_
  rintro ⟨v, c⟩
  rw [mem_iff_find m1 h1, mem_iff_find m2 h2, h v]

theorem get_eq_of_find {m : OccMap} {v : String} {c : Nat} (h : find m v = some c) :
    get m v = c := by
  simp [get, h]

theorem find_increment_self (m : OccMap) (v : String) :
    find (increment m v) v = some (get m v + 1) := by
  simp [increment, find_assign_self]

theorem find_increment_ne (m : OccMap) {v w : String} (h : w ≠ v) :
    find (increment m v) w = find m w := by
  simp [increment, find_assign_ne m _ h]

theorem keys_increment_nodup (m : OccMap) (v : String) (h : (keys m).Nodup) :
    (keys (increment m v)).Nodup :=
  keys_assign_nodup m v _ h

theorem find_decrement_self (m : OccMap) (v : String) (c : Nat) (h : find m v = some (c + 1)) :
    find (decrement m v) v = if c = 0 then none else some c := by
  have hg : get m v = c + 1 := get_eq_of_find h
  have hg1 : get (assign m v c) v = c := get_eq_of_find (find_assign_self m v c)
  simp only [decrement, hg, Nat.succ_ne_zero, if_false, Nat.add_sub_cancel, hg1]
  by_cases hc : c = 0
  · simp [hc, find_erase_self]
  · simp [hc, find_assign_self]

theorem find_decrement_ne (m : OccMap) {v w : String} (h : w ≠ v) :
    find (decrement m v) w = find m w := by
  simp only [decrement]
  split_ifs <;> simp [find_erase_ne _ h, find_assign_ne _ _ h]

theorem keys_decrement_nodup (m : OccMap) (v : String) (h : (keys m).Nodup) :
    (keys (decrement m v)).Nodup := by
  simp only [decrement]
  split_ifs
  all_goals first
    | exact keys_erase_nodup _ _ (keys_assign_nodup _ _ _ h)
    | exact keys_assign_nodup _ _ _ h

end OccMap

/-! ## The per-dimension loops of `mark_outlier` and `read` -/

theorem getD_eq_getElem?_getD {α : Type} (l : List α) (i : Nat) (a : α) :
    l.getD i a = (l[i]?).getD a := by
  simp [List.getD]

theorem foldl_modify_range_length {α : Type} (g : Nat → α → α) (n : Nat) (l : List α) :
    ((List.range n).foldl (fun acc i => acc.modify (g i) i) l).length = l.length := by
  induction n with
  | zero => simp
  | succ n ih => simp [List.range_succ, List.foldl_append, ih]

theorem foldl_modify_range_getElem? {α : Type} (g : Nat → α → α) (n : Nat) (l : List α) (j : Nat) :
    ((List.range n).foldl (fun acc i => acc.modify (g i) i) l)[j]? =
      if j < n then (l[j]?).map (g j) else l[j]? := by
  induction n with
  | zero => simp
  | succ n ih =>
    rw [List.range_succ, List.foldl_append]
    simp only [List.foldl_cons, List.foldl_nil]
    rw [List.getElem?_modify]
    by_cases hj : n = j
    · subst hj
      simp [ih]
    · simp only [hj, if_false, ih]
      by_cases hlt : j < n
      · have : j < n + 1 := by omega
        simp [hlt, this]
      · have : ¬ j < n + 1 := by omega
        simp [hlt, this]

theorem mark_outlier_length (dataset : Dataset) (index : Nat) :
    (mark_outlier dataset index).length = dataset.occurences.length := by
  unfold mark_outlier
  exact foldl_modify_range_length _ _ _

theorem mark_outlier_getElem? (dataset : Dataset) (index : Nat) (i : Nat) :
    (mark_outlier dataset index)[i]? =
      if i < (dataset.data.getD index []).length then
        (dataset.occurences[i]?).map
          (fun m => OccMap.decrement m ((dataset.data.getD index []).getD i ""))
      else dataset.occurences[i]? := by
  unfold mark_outlier
  exact foldl_modify_range_getElem?
    (fun i m => OccMap.decrement m ((dataset.data.getD index []).getD i "")) _ _ i

theorem count_point_length (dimensions : Nat) (occurences : Occurences) (dataPoint : List String) :
    (count_point dimensions occurences dataPoint).length = occurences.length := by
  unfold count_point
  exact foldl_modify_range_length _ _ _

theorem count_point_getElem? (dimensions : Nat) (occurences : Occurences)
    (dataPoint : List String) (i : Nat) :
    (count_point dimensions occurences dataPoint)[i]? =
      if i < dimensions then
        (occurences[i]?).map (fun m => OccMap.increment m (dataPoint.getD i ""))
      else occurences[i]? := by
  unfold count_point
  exact foldl_modify_range_getElem?
    (fun i m => OccMap.increment m (dataPoint.getD i "")) _ _ i

/-! ## The table as a count of the active rows -/

theorem occurrences_of_append (rows : Data) (row : List String) (i : Nat) (v : String) :
    occurrences_of (rows ++ [row]) i v =
      occurrences_of rows i v + (if row.getD i "" = v then 1 else 0) := by
  unfold occurrences_of
  rw [List.countP_append]
  by_cases h : row.getD i "" = v <;> simp [List.countP_cons, h]

theorem tracks_replicate (d : Nat) : Tracks (List.replicate d []) d [] := by
  refine ⟨by simp, ?_⟩
  intro i hi
  refine ⟨[], ?_, by simp [OccMap.keys], ?_⟩
  · simp [List.getElem?_replicate, hi]
  · intro v
    simp [OccMap.find, entry_of_count, occurrences_of]

theorem tracks_count_point (d : Nat) (T : Occurences) (rows : Data) (row : List String)
    (h : Tracks T d rows) : Tracks (count_point d T row) d (rows ++ [row]) := by
  obtain ⟨hlen, hdim⟩ := h
  refine ⟨by rw [count_point_length, hlen], ?_⟩
  intro i hi
  obtain ⟨m, hm, hnd, hfind⟩ := hdim i hi
  refine ⟨OccMap.increment m (row.getD i ""), ?_, OccMap.keys_increment_nodup m _ hnd, ?_⟩
  · rw [count_point_getElem?, if_pos hi, hm]
    rfl
  · intro v
    rw [occurrences_of_append]
    by_cases hv : row.getD i "" = v
    · subst hv
      rw [OccMap.find_increment_self, if_pos rfl]
      have hg : OccMap.get m (row.getD i "") = occurrences_of rows i (row.getD i "") := by
        unfold OccMap.get
        rw [hfind]
        unfold entry_of_count
        split_ifs with h0
        · rw [h0]
          rfl
        · rfl
      rw [hg]
      simp [entry_of_count]
    · have hne : v ≠ row.getD i "" := fun h => hv h.symm
      rw [OccMap.find_increment_ne m hne, hfind, if_neg hv, Nat.add_zero]

theorem tracks_foldl_count_point (d : Nat) (rows : Data) :
    ∀ (T : Occurences) (rows0 : Data), Tracks T d rows0 →
      Tracks (rows.foldl (count_point d) T) d (rows0 ++ rows) := by
  induction rows with
  | nil => intro T rows0 h; simpa using h
  | cons row rows ih =>
    intro T rows0 h
    have := ih (count_point d T row) (rows0 ++ [row]) (tracks_count_point d T rows0 row h)
    simpa using this

theorem tracks_build (d : Nat) (rows : Data) : Tracks (build d rows) d rows := by
  have := tracks_foldl_count_point d rows (List.replicate d []) [] (tracks_replicate d)
  simpa [build] using this

/-! ## Removing one row from the active rows -/

theorem countP_filter_enumFrom (q : List String → Bool) (P Q : Nat → Bool) (idx : Nat)
    (hP : P idx = false) (hQ : Q idx = true) (hPQ : ∀ j, j ≠ idx → P j = Q j) :
    ∀ (data : Data) (k : Nat), k ≤ idx → idx < k + data.length →
      List.countP q (((data.enumFrom k).filter (fun p => P p.1)).map Prod.snd) +
        (if q (data.getD (idx - k) []) then 1 else 0) =
      List.countP q (((data.enumFrom k).filter (fun p => Q p.1)).map Prod.snd) := by
  intro data
  induction data with
  | nil => intro k h1 h2; simp at h2; omega
  | cons row data ih =>
    intro k h1 h2
    by_cases hk : idx = k
    · subst hk
      have hrest : ∀ p ∈ data.enumFrom (idx + 1), P p.1 = Q p.1 := by
        intro p hp
        have := List.le_fst_of_mem_enumFrom hp
        exact hPQ p.1 (by omega)
      have hf : (data.enumFrom (idx + 1)).filter (fun p => P p.1) =
          (data.enumFrom (idx + 1)).filter (fun p => Q p.1) :=
        List.filter_congr hrest
      simp only [List.enumFrom_cons, Nat.sub_self, List.getD_cons_zero]
      rw [List.filter_cons, List.filter_cons]
      simp only [hP, hQ, if_true, List.map_cons, List.countP_cons]
      rw [hf]
      simp
    · have hk1 : k + 1 ≤ idx := by omega
      have hk2 : idx < k + 1 + data.length := by
        simp only [List.length_cons] at h2
        omega
      have hrec := ih (k + 1) hk1 hk2
      have hsub : idx - k = (idx - (k + 1)) + 1 := by omega
      have hkne : k ≠ idx := fun h => hk h.symm
      simp only [List.enumFrom_cons]
      rw [List.filter_cons, List.filter_cons, hsub, List.getD_cons_succ]
      simp only [hPQ k hkne]
      by_cases hkr : Q k = true
      · simp only [hkr, if_true, List.map_cons, List.countP_cons]
        omega
      · simp only [hkr]
        exact hrec

theorem occurrences_of_remaining_insert (data : Data) (removed : Finset Nat) (idx : Nat)
    (hidx : idx ∉ removed) (hlt : idx < data.length) (i : Nat) (v : String) :
    occurrences_of (remaining_rows data (insert idx removed)) i v +
        (if (data.getD idx []).getD i "" = v then 1 else 0) =
      occurrences_of (remaining_rows data removed) i v := by
  have h := countP_filter_enumFrom (fun r => decide (r.getD i "" = v))
    (fun j => decide (j ∉ insert idx removed)) (fun j => decide (j ∉ removed)) idx
    (by simp) (by simp [hidx])
    (by intro j hj; simp [Finset.mem_insert, hj]) data 0 (Nat.zero_le _) (by omega)
  simp only [Nat.sub_zero, decide_eq_true_eq] at h
  exact h

theorem remaining_rows_empty (data : Data) : remaining_rows data ∅ = data := by
  simp [remaining_rows, List.enum, List.enumFrom_map_snd]

theorem tracks_mark_outlier (data : Data) (T : Occurences) (d : Nat) (removed : Finset Nat)
    (idx : Nat) (hrow : (data.getD idx []).length = d) (hidx : idx ∉ removed)
    (hlt : idx < data.length) (h : Tracks T d (remaining_rows data removed)) :
    Tracks (mark_outlier { data := data, occurences := T } idx) d
      (remaining_rows data (insert idx removed)) := by
  obtain ⟨hlen, hdim⟩ := h
  refine ⟨by rw [mark_outlier_length]; exact hlen, ?_⟩
  intro i hi
  obtain ⟨m, hm, hnd, hfind⟩ := hdim i hi
  refine ⟨OccMap.decrement m ((data.getD idx []).getD i ""), ?_,
    OccMap.keys_decrement_nodup m _ hnd, ?_⟩
  · rw [mark_outlier_getElem?]
    simp only
    rw [if_pos (by rw [hrow]; exact hi), hm]
    rfl
  · intro v
    have hcount := occurrences_of_remaining_insert data removed idx hidx hlt i v
    by_cases hv : (data.getD idx []).getD i "" = v
    · subst hv
      rw [if_pos rfl] at hcount
      have hf := hfind ((data.getD idx []).getD i "")
      rw [← hcount] at hf
      simp only [entry_of_count, Nat.succ_ne_zero, if_false] at hf
      rw [OccMap.find_decrement_self m _ _ hf]
      rfl
    · have hne : v ≠ (data.getD idx []).getD i "" := fun h => hv h.symm
      rw [if_neg hv, Nat.add_zero] at hcount
      rw [OccMap.find_decrement_ne m hne, hfind, hcount]

theorem tracks_same_table {T T2 : Occurences} {d : Nat} {rows : Data}
    (h1 : Tracks T d rows) (h2 : Tracks T2 d rows) : same_table T T2 := by
  refine ⟨by rw [h1.1, h2.1], ?_⟩
  intro i v
  by_cases hi : i < d
  · obtain ⟨m1, hm1, _, hf1⟩ := h1.2 i hi
    obtain ⟨m2, hm2, _, hf2⟩ := h2.2 i hi
    have e1 : T.getD i [] = m1 := by simp [List.getD, hm1]
    have e2 : T2.getD i [] = m2 := by simp [List.getD, hm2]
    rw [e1, e2, hf1, hf2]
  · have e1 : T.getD i [] = [] := by
      have : T.length ≤ i := by rw [h1.1]; omega
      simp [List.getD, List.getElem?_eq_none this]
    have e2 : T2.getD i [] = [] := by
      have : T2.length ≤ i := by rw [h2.1]; omega
      simp [List.getD, List.getElem?_eq_none this]
    rw [e1, e2]

/-! ## The entropy as a sum -/

theorem foldl_entries (numDataPoints : Nat) (m : OccMap) (e0 : ℝ) :
    m.foldl
        (fun entropy entry =>
          let p : ℝ := (entry.2 : ℝ) / (numDataPoints : ℝ)
          entropy - p * Real.logb 2 p)
        e0 =
      e0 - dimension_sum numDataPoints m := by
  induction m generalizing e0 with
  | nil => simp [dimension_sum]
  | cons e m ih =>
    simp only [List.foldl_cons]
    rw [ih]
    simp only [dimension_sum, List.map_cons, List.sum_cons, entry_term]
    ring

theorem foldl_dimensions (numDataPoints : Nat) (T : Occurences) (e0 : ℝ) :
    T.foldl
        (fun entropy occ =>
          occ.foldl
            (fun entropy entry =>
              let p : ℝ := (entry.2 : ℝ) / (numDataPoints : ℝ)
              entropy - p * Real.logb 2 p)
            entropy)
        e0 =
      e0 - (T.map (dimension_sum numDataPoints)).sum := by
  induction T generalizing e0 with
  | nil => simp
  | cons m T ih =>
    simp only [List.foldl_cons]
    rw [ih, foldl_entries]
    simp only [List.map_cons, List.sum_cons]
    ring

theorem entropy_eq_sum (T : Occurences) (numDataPoints : Nat) :
    entropy T numDataPoints = - (T.map (dimension_sum numDataPoints)).sum := by
  unfold entropy
  rw [foldl_dimensions]
  ring

theorem list_sum_nonpos (l : List ℝ) (h : ∀ x ∈ l, x ≤ 0) : l.sum ≤ 0 := by
  induction l with
  | nil => simp
  | cons a l ih =>
    have ha := h a (List.mem_cons_self _ _)
    have hl := ih (fun x hx => h x (List.mem_cons_of_mem _ hx))
    rw [List.sum_cons]
    linarith

theorem dimension_sum_perm (numDataPoints : Nat) {m1 m2 : OccMap} (h : m1.Perm m2) :
    dimension_sum numDataPoints m1 = dimension_sum numDataPoints m2 := by
  unfold dimension_sum
  exact (h.map _).sum_eq

theorem sum_map_eq_of_getElem? {α : Type} (f : α → ℝ) :
    ∀ (l1 l2 : List α), l1.length = l2.length →
      (∀ (i : Nat) (a b : α), l1[i]? = some a → l2[i]? = some b → f a = f b) →
      (l1.map f).sum = (l2.map f).sum := by
  intro l1
  induction l1 with
  | nil =>
    intro l2 hlen _
    have : l2 = [] := List.length_eq_zero.mp hlen.symm
    subst this
    rfl
  | cons a l1 ih =>
    intro l2 hlen h
    cases l2 with
    | nil => simp at hlen
    | cons b l2 =>
      have h0 : f a = f b := h 0 a b (by simp) (by simp)
      have hrest := ih l2 (by simpa using hlen)
        (fun i x y hx hy => h (i + 1) x y (by simpa using hx) (by simpa using hy))
      simp [h0, hrest]

theorem entropy_eq_of_tracks {T T2 : Occurences} {d : Nat} {rows : Data}
    (h1 : Tracks T d rows) (h2 : Tracks T2 d rows) (numDataPoints : Nat) :
    entropy T numDataPoints = entropy T2 numDataPoints := by
  rw [entropy_eq_sum, entropy_eq_sum]
  congr 1
  apply sum_map_eq_of_getElem?
  · rw [h1.1, h2.1]
  · intro i a b ha hb
    have hi : i < d := by
      have := (List.getElem?_eq_some.mp ha).1
      rw [h1.1] at this
      exact this
    obtain ⟨m1, hm1, hn1, hf1⟩ := h1.2 i hi
    obtain ⟨m2, hm2, hn2, hf2⟩ := h2.2 i hi
    rw [ha] at hm1
    rw [hb] at hm2
    cases hm1
    cases hm2
    exact dimension_sum_perm numDataPoints
      (OccMap.perm_of_find_eq a b hn1 hn2 (fun v => by rw [hf1, hf2]))

/-! ## The scan of one round -/

theorem scan_upto (ds : Dataset) (O : Finset Nat) (b0 : ℝ) (log0 : List (Occurences × Nat))
    (m : Nat) :
    (((List.range m).foldl (scan_step ds O)
          { bestEntropy := b0, bestIndex := none, evaluated := log0 }).bestIndex = none →
        ((List.range m).foldl (scan_step ds O)
          { bestEntropy := b0, bestIndex := none, evaluated := log0 }).bestEntropy = b0 ∧
        ∀ j, j < m → j ∉ O → ¬ candidate_entropy ds O j < b0) ∧
    (∀ i, ((List.range m).foldl (scan_step ds O)
          { bestEntropy := b0, bestIndex := none, evaluated := log0 }).bestIndex = some i →
        i < m ∧ i ∉ O ∧
        ((List.range m).foldl (scan_step ds O)
          { bestEntropy := b0, bestIndex := none, evaluated := log0 }).bestEntropy =
            candidate_entropy ds O i ∧
        candidate_entropy ds O i < b0 ∧
        (∀ j, j < m → j ∉ O → candidate_entropy ds O i ≤ candidate_entropy ds O j) ∧
        (∀ j, j < i → j ∉ O → candidate_entropy ds O i < candidate_entropy ds O j)) := by
  induction m with
  | zero => simp
  | succ m ih =>
    rw [List.range_succ, List.foldl_append]
    simp only [List.foldl_cons, List.foldl_nil]
    generalize (List.range m).foldl (scan_step ds O)
      { bestEntropy := b0, bestIndex := none, evaluated := log0 } = sc at ih ⊢
    obtain ⟨ihn, ihs⟩ := ih
    by_cases hm : m ∈ O
    · have hstep : scan_step ds O sc m = sc := by simp [scan_step, hm]
      rw [hstep]
      constructor
      · intro hnone
        refine ⟨(ihn hnone).1, ?_⟩
        intro j hj hjO
        have hjm : j ≠ m := fun h => hjO (h ▸ hm)
        exact (ihn hnone).2 j (by omega) hjO
      · intro i hi
        obtain ⟨h1, h2, h3, h4, h5, h6⟩ := ihs i hi
        refine ⟨by omega, h2, h3, h4, ?_, h6⟩
        intro j hj hjO
        have hjm : j ≠ m := fun h => hjO (h ▸ hm)
        exact h5 j (by omega) hjO
    · by_cases hlt : candidate_entropy ds O m < sc.bestEntropy
      · have hstep : scan_step ds O sc m =
            { bestEntropy := candidate_entropy ds O m, bestIndex := some m,
              evaluated := sc.evaluated ++
                [(mark_outlier ds m, ds.data.length - O.card - 1)] } := by
          unfold candidate_entropy at hlt
          simp [scan_step, hm, hlt, candidate_entropy]
        rw [hstep]
        have hbound : sc.bestEntropy ≤ b0 ∧
            ∀ j, j < m → j ∉ O → sc.bestEntropy ≤ candidate_entropy ds O j := by
          cases hb : sc.bestIndex with
          | none =>
            obtain ⟨e1, e2⟩ := ihn hb
            refine ⟨le_of_eq e1, ?_⟩
            intro j hj hjO
            rw [e1]
            exact not_lt.mp (e2 j hj hjO)
          | some i =>
            obtain ⟨_, _, h3, h4, h5, _⟩ := ihs i hb
            refine ⟨by rw [h3]; exact le_of_lt h4, ?_⟩
            intro j hj hjO
            rw [h3]
            exact h5 j hj hjO
        constructor
        · intro hnone
          simp at hnone
        · intro i hi
          simp only [Option.some.injEq] at hi
          subst hi
          refine ⟨by omega, hm, rfl, lt_of_lt_of_le hlt hbound.1, ?_, ?_⟩
          · intro j hj hjO
            by_cases hjm : j = m
            · rw [hjm]
            · exact le_of_lt (lt_of_lt_of_le hlt (hbound.2 j (by omega) hjO))
          · intro j hj hjO
            exact lt_of_lt_of_le hlt (hbound.2 j hj hjO)
      · have hstep : scan_step ds O sc m =
            { sc with evaluated := sc.evaluated ++
                [(mark_outlier ds m, ds.data.length - O.card - 1)] } := by
          unfold candidate_entropy at hlt
          simp [scan_step, hm, hlt]
        rw [hstep]
        simp only
        constructor
        · intro hnone
          obtain ⟨e1, e2⟩ := ihn hnone
          refine ⟨e1, ?_⟩
          intro j hj hjO
          by_cases hjm : j = m
          · rw [hjm, ← e1]
            exact hlt
          · exact e2 j (by omega) hjO
        · intro i hi
          obtain ⟨h1, h2, h3, h4, h5, h6⟩ := ihs i hi
          refine ⟨by omega, h2, h3, h4, ?_, h6⟩
          intro j hj hjO
          by_cases hjm : j = m
          · rw [hjm, ← h3]
            exact not_lt.mp hlt
          · exact h5 j (by omega) hjO

theorem scan_none_iff (s : Search) : (scan s).bestIndex = none ↔ no_improvement s := by
  have h := scan_upto s.dataset s.outliers s.bestEntropy s.evaluated s.dataset.data.length
  constructor
  · intro hn
    exact (h.1 hn).2
  · intro hno
    cases hb : (scan s).bestIndex with
    | none => rfl
    | some i =>
      obtain ⟨h1, h2, _, h4, _, _⟩ := h.2 i hb
      exact absurd h4 (hno i h1 h2)

theorem scan_none_bestEntropy (s : Search) (h : (scan s).bestIndex = none) :
    (scan s).bestEntropy = s.bestEntropy :=
  ((scan_upto s.dataset s.outliers s.bestEntropy s.evaluated s.dataset.data.length).1 h).1

theorem scan_some (s : Search) (i : Nat) (h : (scan s).bestIndex = some i) :
    least_minimal s.dataset s.outliers i ∧
      (scan s).bestEntropy = candidate_entropy s.dataset s.outliers i ∧
      candidate_entropy s.dataset s.outliers i < s.bestEntropy := by
  obtain ⟨h1, h2, h3, h4, h5, h6⟩ :=
    (scan_upto s.dataset s.outliers s.bestEntropy s.evaluated s.dataset.data.length).2 i h
  exact ⟨⟨h1, h2, h5, h6⟩, h3, h4⟩

theorem least_minimal_unique {ds : Dataset} {O : Finset Nat} {i j : Nat}
    (hi : least_minimal ds O i) (hj : least_minimal ds O j) : i = j := by
  obtain ⟨i1, i2, i3, i4⟩ := hi
  obtain ⟨j1, j2, j3, j4⟩ := hj
  rcases Nat.lt_trichotomy i j with h | h | h
  · exact absurd (j4 i h i2) (not_lt.mpr (i3 j j1 j2))
  · exact h
  · exact absurd (i4 j h j2) (not_lt.mpr (j3 i i1 i2))

theorem scan_evaluated_upto (ds : Dataset) (O : Finset Nat) (sc0 : Scan) (m : Nat) :
    ((List.range m).foldl (scan_step ds O) sc0).evaluated =
      sc0.evaluated ++ (((List.range m).filter (fun j => decide (j ∉ O))).map
        (fun j => (mark_outlier ds j, ds.data.length - O.card - 1))) := by
  induction m with
  | zero => simp
  | succ m ih =>
    rw [List.range_succ, List.foldl_append, List.filter_append, List.map_append]
    simp only [List.foldl_cons, List.foldl_nil]
    by_cases hm : m ∈ O
    · have hstep : ∀ sc, scan_step ds O sc m = sc := by intro sc; simp [scan_step, hm]
      rw [hstep, ih]
      simp [hm]
    · have hstep : ∀ sc, (scan_step ds O sc m).evaluated =
          sc.evaluated ++ [(mark_outlier ds m, ds.data.length - O.card - 1)] := by
        intro sc
        simp only [scan_step, hm, if_false]
        split_ifs <;> rfl
      rw [hstep, ih]
      simp [hm]

theorem scan_evaluated (s : Search) :
    (scan s).evaluated =
      s.evaluated ++ (((List.range s.dataset.data.length).filter
          (fun j => decide (j ∉ s.outliers))).map
        (fun j => (mark_outlier s.dataset j, s.dataset.data.length - s.outliers.card - 1))) := by
  unfold scan
  rw [scan_evaluated_upto]

/-! ## One round, and the loop as an iteration of rounds -/

theorem round_of_none (s : Search) (h : (scan s).bestIndex = none) :
    round s = (Except.error Error.no_improvement,
      { s with bestEntropy := (scan s).bestEntropy, evaluated := (scan s).evaluated }) := by
  simp [round, h]

theorem round_of_some (s : Search) (i : Nat) (h : (scan s).bestIndex = some i) :
    round s = (Except.ok (),
      { dataset := { s.dataset with occurences := mark_outlier s.dataset i }
        outliers := insert i s.outliers
        bestEntropy := (scan s).bestEntropy
        evaluated := (scan s).evaluated }) := by
  simp [round, h]

theorem round_ok (s t : Search) (h : round s = (Except.ok (), t)) :
    ∃ i, (scan s).bestIndex = some i ∧
      t = { dataset := { s.dataset with occurences := mark_outlier s.dataset i }
            outliers := insert i s.outliers
            bestEntropy := (scan s).bestEntropy
            evaluated := (scan s).evaluated } := by
  cases hb : (scan s).bestIndex with
  | none =>
    rw [round_of_none s hb] at h
    simp at h
  | some i =>
    rw [round_of_some s i hb] at h
    exact ⟨i, rfl, (Prod.mk.inj h).2.symm⟩

theorem round_error (s t : Search) (e : Error) (h : round s = (Except.error e, t)) :
    e = Error.no_improvement ∧ (scan s).bestIndex = none ∧
      t = { s with bestEntropy := (scan s).bestEntropy, evaluated := (scan s).evaluated } := by
  cases hb : (scan s).bestIndex with
  | none =>
    rw [round_of_none s hb] at h
    have h1 := (Prod.mk.inj h).1
    have h2 := (Prod.mk.inj h).2
    refine ⟨?_, rfl, h2.symm⟩
    cases h1
    rfl
  | some i =>
    rw [round_of_some s i hb] at h
    simp at h

theorem round_cases (s : Search) :
    (∃ t, round s = (Except.ok (), t)) ∨ (∃ t, round s = (Except.error Error.no_improvement, t)) := by
  cases hb : (scan s).bestIndex with
  | none => exact Or.inr ⟨_, round_of_none s hb⟩
  | some i => exact Or.inl ⟨_, round_of_some s i hb⟩

theorem round_error_iff (s : Search) :
    (∃ t, round s = (Except.error Error.no_improvement, t)) ↔ no_improvement s := by
  rw [← scan_none_iff]
  constructor
  · rintro ⟨t, ht⟩
    exact (round_error s t _ ht).2.1
  · intro h
    exact ⟨_, round_of_none s h⟩

theorem run_rounds_zero (s : Search) : run_rounds 0 s = some s := rfl

theorem run_rounds_succ_ok (r : Nat) (s t : Search) (h : round s = (Except.ok (), t)) :
    run_rounds (r + 1) s = run_rounds r t := by
  simp [run_rounds, h]

theorem run_rounds_succ_error (r : Nat) (s t : Search) (e : Error)
    (h : round s = (Except.error e, t)) : run_rounds (r + 1) s = none := by
  simp [run_rounds, h]

theorem run_rounds_add (a b : Nat) :
    ∀ s, run_rounds (a + b) s = (run_rounds a s).bind (run_rounds b) := by
  induction a with
  | zero => intro s; simp [run_rounds_zero]
  | succ a ih =>
    intro s
    have hab : a + 1 + b = (a + b) + 1 := by omega
    rw [hab]
    rcases round_cases s with ⟨t, ht⟩ | ⟨t, ht⟩
    · rw [run_rounds_succ_ok _ s t ht, run_rounds_succ_ok _ s t ht, ih]
    · rw [run_rounds_succ_error _ s t _ ht, run_rounds_succ_error _ s t _ ht]
      rfl

theorem run_rounds_succ (r : Nat) (s : Search) :
    run_rounds (r + 1) s = (run_rounds r s).bind (run_rounds 1) :=
  run_rounds_add r 1 s

theorem run_rounds_one_some (s t : Search) :
    run_rounds 1 s = some t ↔ round s = (Except.ok (), t) := by
  rcases round_cases s with ⟨u, hu⟩ | ⟨u, hu⟩
  · rw [run_rounds_succ_ok 0 s u hu, run_rounds_zero, hu]
    constructor
    · intro h
      cases h
      rfl
    · intro h
      cases h
      rfl
  · rw [run_rounds_succ_error 0 s u _ hu, hu]
    constructor
    · intro h
      cases h
    · intro h
      cases h

theorem run_rounds_none_mono (a b : Nat) (hab : a ≤ b) (s : Search)
    (h : run_rounds a s = none) : run_rounds b s = none := by
  obtain ⟨c, rfl⟩ := Nat.exists_eq_add_of_le hab
  rw [run_rounds_add, h]
  rfl

theorem run_rounds_some_mono (a b : Nat) (hab : a ≤ b) (s t : Search)
    (h : run_rounds b s = some t) : ∃ u, run_rounds a s = some u := by
  cases hu : run_rounds a s with
  | none =>
    rw [run_rounds_none_mono a b hab s hu] at h
    cases h
  | some u => exact ⟨u, rfl⟩

/-- What one committed round changes. -/
theorem round_ok_facts (s t : Search) (h : round s = (Except.ok (), t)) :
    ∃ i, least_minimal s.dataset s.outliers i ∧
      t.outliers = insert i s.outliers ∧
      t.dataset.data = s.dataset.data ∧
      t.dataset.occurences = mark_outlier s.dataset i ∧
      t.bestEntropy = candidate_entropy s.dataset s.outliers i ∧
      t.bestEntropy < s.bestEntropy := by
  obtain ⟨i, hi, rfl⟩ := round_ok s t h
  obtain ⟨h1, h2, h3⟩ := scan_some s i hi
  exact ⟨i, h1, rfl, rfl, rfl, h2, by simp only; rw [h2]; exact h3⟩

theorem run_rounds_facts (r : Nat) :
    ∀ s t, run_rounds r s = some t →
      t.dataset.data = s.dataset.data ∧
      t.outliers.card = s.outliers.card + r ∧
      s.outliers ⊆ t.outliers ∧
      (∀ i ∈ t.outliers, i ∈ s.outliers ∨ i < s.dataset.data.length) ∧
      t.bestEntropy ≤ s.bestEntropy ∧ (0 < r → t.bestEntropy < s.bestEntropy) := by
  induction r with
  | zero =>
    intro s t h
    rw [run_rounds_zero] at h
    cases h
    exact ⟨rfl, rfl, Finset.Subset.refl _, fun i hi => Or.inl hi, le_refl _,
      fun h => absurd h (lt_irrefl 0)⟩
  | succ r ih =>
    intro s t h
    rcases round_cases s with ⟨u, hu⟩ | ⟨u, hu⟩
    · rw [run_rounds_succ_ok r s u hu] at h
      obtain ⟨i, hmin, ho, hd, _, _, hlt⟩ := round_ok_facts s u hu
      obtain ⟨f1, f2, f3, f4, f5, _⟩ := ih u t h
      refine ⟨by rw [f1, hd], ?_, ?_, ?_, ?_, ?_⟩
      · rw [f2, ho, Finset.card_insert_of_not_mem hmin.2.1]
        omega
      · intro x hx
        exact f3 (by rw [ho]; exact Finset.mem_insert_of_mem hx)
      · intro x hx
        rcases f4 x hx with hxu | hxu
        · rw [ho, Finset.mem_insert] at hxu
          rcases hxu with rfl | hxs
          · exact Or.inr hmin.1
          · exact Or.inl hxs
        · rw [hd] at hxu
          exact Or.inr hxu
      · exact le_trans f5 (le_of_lt hlt)
      · intro _
        exact lt_of_le_of_lt f5 hlt
    · rw [run_rounds_succ_error r s u _ hu] at h
      cases h

/-- The loop with enough fuel: it either runs all the missing rounds and
returns, or throws in the first round that finds no improvement. -/
theorem search_loop_spec (k : Nat) :
    ∀ (fuel : Nat) (s : Search), s.outliers.card ≤ k → k - s.outliers.card ≤ fuel →
      (∃ t, run_rounds (k - s.outliers.card) s = some t ∧
        search_loop k fuel s = some
          { result := Except.ok { outliers := t.outliers, entropy := t.bestEntropy }
            dataset := t.dataset
            evaluated := t.evaluated }) ∨
      (∃ r t t1, r < k - s.outliers.card ∧ run_rounds r s = some t ∧
        round t = (Except.error Error.no_improvement, t1) ∧
        search_loop k fuel s = some
          { result := Except.error Error.no_improvement
            dataset := t1.dataset
            evaluated := t1.evaluated }) := by
  intro fuel
  induction fuel with
  | zero =>
    intro s h1 h2
    have hk : k - s.outliers.card = 0 := by omega
    have hnlt : ¬ s.outliers.card < k := by omega
    left
    refine ⟨s, by rw [hk, run_rounds_zero], ?_⟩
    simp [search_loop, hnlt]
  | succ fuel ih =>
    intro s h1 h2
    by_cases hlt : s.outliers.card < k
    · rcases round_cases s with ⟨u, hu⟩ | ⟨u, hu⟩
      · obtain ⟨i, hmin, ho, _, _, _, _⟩ := round_ok_facts s u hu
        have hcard : u.outliers.card = s.outliers.card + 1 := by
          rw [ho, Finset.card_insert_of_not_mem hmin.2.1]
        have hstep : search_loop k (fuel + 1) s = search_loop k fuel u := by
          simp [search_loop, hlt, hu]
        have hsub : k - s.outliers.card = (k - u.outliers.card) + 1 := by omega
        rcases ih u (by omega) (by omega) with ⟨t, ht, hres⟩ | ⟨r, t, t1, hr, ht, hrd, hres⟩
        · left
          refine ⟨t, ?_, ?_⟩
          · rw [hsub, run_rounds_succ_ok _ s u hu]
            exact ht
          · rw [hstep]
            exact hres
        · right
          refine ⟨r + 1, t, t1, by omega, ?_, hrd, ?_⟩
          · rw [run_rounds_succ_ok _ s u hu]
            exact ht
          · rw [hstep]
            exact hres
      · right
        refine ⟨0, s, u, by omega, run_rounds_zero s, hu, ?_⟩
        simp [search_loop, hlt, hu]
    · have hk : k - s.outliers.card = 0 := by omega
      left
      refine ⟨s, by rw [hk, run_rounds_zero], ?_⟩
      simp [search_loop, hlt]

/-! ## The whole call -/

theorem initial_search_card (dataset : Dataset) : (initial_search dataset).outliers.card = 0 := rfl

/-- With at least `k` units of fuel and `k ≤ n`, the call either runs `k`
rounds and returns, or throws in the first round without improvement. -/
theorem greedy_outliers_fuel_spec (fuel : Nat) (dataset : Dataset) (k : Nat)
    (hk : k ≤ dataset.data.length) (hfuel : k ≤ fuel) :
    (∃ t, after_rounds dataset k = some t ∧
      greedy_outliers_fuel fuel dataset k = some
        { result := Except.ok { outliers := t.outliers, entropy := t.bestEntropy }
          dataset := t.dataset
          evaluated := t.evaluated }) ∨
    (∃ r t t1, r < k ∧ after_rounds dataset r = some t ∧
      round t = (Except.error Error.no_improvement, t1) ∧
      greedy_outliers_fuel fuel dataset k = some
        { result := Except.error Error.no_improvement
          dataset := t1.dataset
          evaluated := t1.evaluated }) := by
  have hnot : ¬ k > dataset.data.length := by omega
  have h := search_loop_spec k fuel (initial_search dataset)
    (by rw [initial_search_card]; omega) (by rw [initial_search_card]; omega)
  rw [initial_search_card, Nat.sub_zero] at h
  unfold greedy_outliers_fuel after_rounds
  rw [if_neg hnot]
  exact h

theorem greedy_outliers_spec (dataset : Dataset) (k : Nat) (hk : k ≤ dataset.data.length) :
    (∃ t, after_rounds dataset k = some t ∧
      greedy_outliers dataset k = some
        { result := Except.ok { outliers := t.outliers, entropy := t.bestEntropy }
          dataset := t.dataset
          evaluated := t.evaluated }) ∨
    (∃ r t t1, r < k ∧ after_rounds dataset r = some t ∧
      round t = (Except.error Error.no_improvement, t1) ∧
      greedy_outliers dataset k = some
        { result := Except.error Error.no_improvement
          dataset := t1.dataset
          evaluated := t1.evaluated }) :=
  greedy_outliers_fuel_spec k dataset k hk (le_refl k)

theorem greedy_outliers_of_gt (dataset : Dataset) (k : Nat) (hk : k > dataset.data.length) :
    greedy_outliers dataset k = some
      { result := Except.error Error.k_exceeds, dataset := dataset, evaluated := [] } := by
  unfold greedy_outliers greedy_outliers_fuel
  rw [if_pos hk]

theorem after_rounds_none_of_error (dataset : Dataset) (r j : Nat) (t t1 : Search) (e : Error)
    (ht : after_rounds dataset r = some t) (hrd : round t = (Except.error e, t1)) (hj : r < j) :
    after_rounds dataset j = none := by
  have h1 : after_rounds dataset (r + 1) = none := by
    unfold after_rounds at ht ⊢
    rw [run_rounds_succ, ht]
    exact run_rounds_succ_error 0 t t1 _ hrd
  exact run_rounds_none_mono (r + 1) j (by omega) _ h1

theorem after_rounds_succ_some (dataset : Dataset) (r : Nat) (s t : Search)
    (hs : after_rounds dataset r = some s) :
    after_rounds dataset (r + 1) = some t ↔ round s = (Except.ok (), t) := by
  unfold after_rounds at hs ⊢
  rw [run_rounds_succ, hs]
  exact run_rounds_one_some s t

/-- The round in which a call fails is determined by the dataset. -/
theorem failing_round_unique (dataset : Dataset) (r r2 : Nat) (t t1 t2 t3 : Search) (e e2 : Error)
    (ht : after_rounds dataset r = some t) (hrd : round t = (Except.error e, t1))
    (ht2 : after_rounds dataset r2 = some t2) (hrd2 : round t2 = (Except.error e2, t3)) :
    r = r2 := by
  rcases Nat.lt_trichotomy r r2 with h | h | h
  · rw [after_rounds_none_of_error dataset r r2 t t1 e ht hrd h] at ht2
    cases ht2
  · exact h
  · rw [after_rounds_none_of_error dataset r2 r t2 t3 e2 ht2 hrd2 h] at ht
    cases ht

/-- The loop never runs out of the fuel that `greedy_outliers` supplies, and
more fuel does not change the outcome. -/
theorem greedy_outliers_total (dataset : Dataset) (k : Nat) :
    ∃ o, greedy_outliers dataset k = some o ∧
      ∀ fuel, k ≤ fuel → greedy_outliers_fuel fuel dataset k = some o := by
  by_cases hk : k ≤ dataset.data.length
  · rcases greedy_outliers_spec dataset k hk with ⟨t, ht, hres⟩ | ⟨r, t, t1, hr, ht, hrd, hres⟩
    · refine ⟨_, hres, ?_⟩
      intro fuel hfuel
      rcases greedy_outliers_fuel_spec fuel dataset k hk hfuel with
        ⟨t2, ht2, hres2⟩ | ⟨r2, t2, t3, hr2, ht2, hrd2, _⟩
      · rw [ht] at ht2
        cases ht2
        exact hres2
      · rw [after_rounds_none_of_error dataset r2 k t2 t3 _ ht2 hrd2 hr2] at ht
        cases ht
    · refine ⟨_, hres, ?_⟩
      intro fuel hfuel
      rcases greedy_outliers_fuel_spec fuel dataset k hk hfuel with
        ⟨t2, ht2, _⟩ | ⟨r2, t2, t3, hr2, ht2, hrd2, hres2⟩
      · rw [after_rounds_none_of_error dataset r k t t1 _ ht hrd hr] at ht2
        cases ht2
      · have hrr := failing_round_unique dataset r r2 t t1 t2 t3 _ _ ht hrd ht2 hrd2
        subst hrr
        rw [ht] at ht2
        cases ht2
        rw [hrd] at hrd2
        cases hrd2
        exact hres2
  · have hgt : k > dataset.data.length := by omega
    refine ⟨_, greedy_outliers_of_gt dataset k hgt, ?_⟩
    intro fuel _
    unfold greedy_outliers_fuel
    rw [if_pos hgt]

/-- A call that returns a result ran `k` committed rounds. -/
theorem greedy_outliers_ok (dataset : Dataset) (k : Nat) (o : Outcome) (R : Result)
    (hrun : greedy_outliers dataset k = some o) (hok : o.result = Except.ok R) :
    k ≤ dataset.data.length ∧ ∃ t, after_rounds dataset k = some t ∧
      R = { outliers := t.outliers, entropy := t.bestEntropy } ∧ o.dataset = t.dataset ∧
      o.evaluated = t.evaluated := by
  by_cases hk : k ≤ dataset.data.length
  · refine ⟨hk, ?_⟩
    rcases greedy_outliers_spec dataset k hk with ⟨t, ht, hres⟩ | ⟨r, t, t1, hr, ht, hrd, hres⟩
    · rw [hres] at hrun
      cases hrun
      simp only [Except.ok.injEq] at hok
      exact ⟨t, ht, hok.symm, rfl, rfl⟩
    · rw [hres] at hrun
      cases hrun
      cases hok
  · rw [greedy_outliers_of_gt dataset k (by omega)] at hrun
    cases hrun
    cases hok

/-! ## Invariants of the loop state -/

theorem entropy_current_initial (dataset : Dataset) : entropy_current (initial_search dataset) := by
  simp [entropy_current, initial_search]

theorem entropy_current_round (s t : Search) (h : round s = (Except.ok (), t)) :
    entropy_current t := by
  obtain ⟨i, hmin, ho, hd, hocc, hbest, _⟩ := round_ok_facts s t h
  unfold entropy_current
  rw [hbest, hocc, hd, ho, Finset.card_insert_of_not_mem hmin.2.1]
  unfold candidate_entropy
  rw [Nat.sub_sub]

theorem entropy_current_run_rounds (r : Nat) :
    ∀ s t, run_rounds r s = some t → entropy_current s → entropy_current t := by
  induction r with
  | zero =>
    intro s t h hs
    rw [run_rounds_zero] at h
    cases h
    exact hs
  | succ r ih =>
    intro s t h _
    rcases round_cases s with ⟨u, hu⟩ | ⟨u, hu⟩
    · rw [run_rounds_succ_ok r s u hu] at h
      exact ih u t h (entropy_current_round s u hu)
    · rw [run_rounds_succ_error r s u _ hu] at h
      cases h

theorem row_length_of_uniform (data : Data) (d : Nat) (hrows : ∀ row ∈ data, row.length = d)
    (idx : Nat) (hlt : idx < data.length) : (data.getD idx []).length = d := by
  have hmem : data.getD idx [] ∈ data := by
    rw [List.getD_eq_getElem data [] hlt]
    exact List.getElem_mem hlt
  exact hrows _ hmem

theorem consistent_initial (data : Data) (d : Nat) :
    Consistent data d (initial_search { data := data, occurences := build d data }) := by
  refine ⟨rfl, ?_, ?_⟩
  · intro i hi
    simp [initial_search] at hi
  · show Tracks (build d data) d (remaining_rows data ∅)
    rw [remaining_rows_empty]
    exact tracks_build d data

theorem consistent_round (data : Data) (d : Nat) (hrows : ∀ row ∈ data, row.length = d)
    (s t : Search) (hc : Consistent data d s) (h : round s = (Except.ok (), t)) :
    Consistent data d t := by
  obtain ⟨i, hmin, ho, hd, hocc, _, _⟩ := round_ok_facts s t h
  obtain ⟨c1, c2, c3⟩ := hc
  have hlt : i < data.length := by rw [← c1]; exact hmin.1
  refine ⟨by rw [hd, c1], ?_, ?_⟩
  · intro j hj
    rw [ho, Finset.mem_insert] at hj
    rcases hj with rfl | hj
    · exact hlt
    · exact c2 j hj
  · rw [hocc, ho]
    have hds : s.dataset = { data := data, occurences := s.dataset.occurences } := by
      cases hsd : s.dataset with
      | mk dd oo =>
        rw [hsd] at c1
        simp only at c1
        rw [c1]
    rw [hds]
    exact tracks_mark_outlier data s.dataset.occurences d s.outliers i
      (row_length_of_uniform data d hrows i hlt) hmin.2.1 hlt c3

theorem consistent_run_rounds (data : Data) (d : Nat) (hrows : ∀ row ∈ data, row.length = d)
    (r : Nat) : ∀ s t, run_rounds r s = some t → Consistent data d s → Consistent data d t := by
  induction r with
  | zero =>
    intro s t h hs
    rw [run_rounds_zero] at h
    cases h
    exact hs
  | succ r ih =>
    intro s t h hs
    rcases round_cases s with ⟨u, hu⟩ | ⟨u, hu⟩
    · rw [run_rounds_succ_ok r s u hu] at h
      exact ih u t h (consistent_round data d hrows s u hs hu)
    · rw [run_rounds_succ_error r s u _ hu] at h
      cases h

theorem tracks_commit_all (data : Data) (d : Nat) (hrows : ∀ row ∈ data, row.length = d)
    (removed : List Nat) :
    ∀ (T : Occurences) (S : Finset Nat), Tracks T d (remaining_rows data S) →
      (∀ i ∈ removed, i ∉ S ∧ i < data.length) → removed.Nodup →
      Tracks (commit_all data T removed) d (remaining_rows data (S ∪ removed.toFinset)) := by
  induction removed with
  | nil =>
    intro T S h _ _
    simpa [commit_all] using h
  | cons idx rest ih =>
    intro T S h hmem hnd
    have hidx := hmem idx (List.mem_cons_self _ _)
    have hnd2 := List.nodup_cons.mp hnd
    have hstep := tracks_mark_outlier data T d S idx
      (row_length_of_uniform data d hrows idx hidx.2) hidx.1 hidx.2 h
    have hrec := ih (mark_outlier { data := data, occurences := T } idx) (insert idx S) hstep
      (by
        intro i hi
        have hi2 := hmem i (List.mem_cons_of_mem _ hi)
        refine ⟨?_, hi2.2⟩
        rw [Finset.mem_insert]
        rintro (rfl | hS)
        · exact hnd2.1 hi
        · exact hi2.1 hS)
      hnd2.2
    have hset : insert idx S ∪ rest.toFinset = S ∪ (idx :: rest).toFinset := by
      ext x
      simp only [Finset.mem_union, Finset.mem_insert, List.mem_toFinset, List.mem_cons]
      tauto
    rw [hset] at hrec
    exact hrec

/-! ## Scenario A, evaluated -/

theorem logb_two_half : Real.logb 2 (1 / 2) = -1 := by
  rw [one_div, Real.logb_inv, Real.logb_self_eq_one (by norm_num)]

theorem logb_two_third : Real.logb 2 (1 / 3) = - Real.logb 2 3 := by
  rw [one_div, Real.logb_inv]

theorem logb_two_two_thirds : Real.logb 2 (2 / 3) = 1 - Real.logb 2 3 := by
  rw [Real.logb_div (by norm_num) (by norm_num), Real.logb_self_eq_one (by norm_num)]

theorem logb_two_three_gt : (3 : ℝ) / 2 < Real.logb 2 3 := by
  have h8 : Real.logb 2 8 = 3 := by
    have : (8 : ℝ) = 2 ^ (3 : ℕ) := by norm_num
    rw [this, Real.logb_pow, Real.logb_self_eq_one (by norm_num)]
    norm_num
  have h9 : Real.logb 2 9 = 2 * Real.logb 2 3 := by
    have : (9 : ℝ) = 3 ^ (2 : ℕ) := by norm_num
    rw [this, Real.logb_pow]
    norm_num
  have hlt : Real.logb 2 8 < Real.logb 2 9 :=
    Real.logb_lt_logb (by norm_num) (by norm_num) (by norm_num)
  rw [h8, h9] at hlt
  linarith

theorem scenario_build :
    build 3 scenario_data =
      [[("1", 1), ("0", 2)], [("2", 2), ("1", 1)], [("a", 1), ("b", 1), ("c", 1)]] := by
  decide

theorem scenario_mark_0 :
    mark_outlier scenario_dataset 0 =
      [[("0", 2)], [("2", 1), ("1", 1)], [("b", 1), ("c", 1)]] := by
  decide

theorem scenario_mark_1 :
    mark_outlier scenario_dataset 1 =
      [[("1", 1), ("0", 1)], [("2", 2)], [("a", 1), ("c", 1)]] := by
  decide

theorem scenario_mark_2 :
    mark_outlier scenario_dataset 2 =
      [[("1", 1), ("0", 1)], [("2", 1), ("1", 1)], [("a", 1), ("b", 1)]] := by
  decide

theorem scenario_length : scenario_dataset.data.length = 3 := rfl

theorem scenario_baseline :
    entropy scenario_dataset.occurences scenario_dataset.data.length =
      3 * Real.logb 2 3 - 4 / 3 := by
  have h : scenario_dataset.occurences = build 3 scenario_data := rfl
  rw [h, scenario_build, scenario_length]
  simp only [entropy, List.foldl_cons, List.foldl_nil]
  norm_num [logb_two_third, logb_two_two_thirds]
  ring

theorem scenario_candidate_0 : candidate_entropy scenario_dataset ∅ 0 = 2 := by
  unfold candidate_entropy
  rw [scenario_mark_0, scenario_length]
  simp only [entropy, List.foldl_cons, List.foldl_nil, Finset.card_empty]
  norm_num [logb_two_half]

theorem scenario_candidate_1 : candidate_entropy scenario_dataset ∅ 1 = 2 := by
  unfold candidate_entropy
  rw [scenario_mark_1, scenario_length]
  simp only [entropy, List.foldl_cons, List.foldl_nil, Finset.card_empty]
  norm_num [logb_two_half]

theorem scenario_candidate_2 : candidate_entropy scenario_dataset ∅ 2 = 3 := by
  unfold candidate_entropy
  rw [scenario_mark_2, scenario_length]
  simp only [entropy, List.foldl_cons, List.foldl_nil, Finset.card_empty]
  norm_num [logb_two_half]

theorem scenario_least_minimal : least_minimal scenario_dataset ∅ 0 := by
  refine ⟨by rw [scenario_length]; omega, by simp, ?_, ?_⟩
  · intro j hj _
    rw [scenario_length] at hj
    rw [scenario_candidate_0]
    have hcases : j = 0 ∨ j = 1 ∨ j = 2 := by omega
    rcases hcases with rfl | rfl | rfl
    · rw [scenario_candidate_0]
    · rw [scenario_candidate_1]
    · rw [scenario_candidate_2]
      norm_num
  · intro j hj _
    omega

theorem scenario_scan_index : (scan (initial_search scenario_dataset)).bestIndex = some 0 := by
  cases hb : (scan (initial_search scenario_dataset)).bestIndex with
  | none =>
    have hno := (scan_none_iff _).mp hb
    have h0 := hno 0 (by show 0 < scenario_dataset.data.length; rw [scenario_length]; omega)
      (by simp [initial_search])
    have hbase : (initial_search scenario_dataset).bestEntropy = 3 * Real.logb 2 3 - 4 / 3 :=
      scenario_baseline
    have hc : candidate_entropy (initial_search scenario_dataset).dataset
        (initial_search scenario_dataset).outliers 0 = 2 := scenario_candidate_0
    rw [hbase, hc] at h0
    have := logb_two_three_gt
    exact absurd (by linarith) h0
  | some i =>
    have hmin := (scan_some _ i hb).1
    have h0 : least_minimal (initial_search scenario_dataset).dataset
        (initial_search scenario_dataset).outliers 0 := scenario_least_minimal
    rw [least_minimal_unique hmin h0]

theorem scenario_scan_entropy : (scan (initial_search scenario_dataset)).bestEntropy = 2 := by
  rw [(scan_some _ 0 scenario_scan_index).2.1]
  exact scenario_candidate_0

theorem scenario_scan_evaluated :
    (scan (initial_search scenario_dataset)).evaluated = scenario_outcome.evaluated := by
  rw [scan_evaluated]
  have hr : List.range (initial_search scenario_dataset).dataset.data.length = [0, 1, 2] := by
    decide
  have hf : ([0, 1, 2] : List Nat).filter
      (fun j => decide (j ∉ (initial_search scenario_dataset).outliers)) = [0, 1, 2] := by
    simp [initial_search]
  rw [hr, hf]
  have hd : (initial_search scenario_dataset).dataset = scenario_dataset := rfl
  have he : (initial_search scenario_dataset).evaluated =
      [(scenario_dataset.occurences, scenario_dataset.data.length)] := rfl
  have hb : scenario_dataset.occurences = build 3 scenario_data := rfl
  rw [hd, he, hb, scenario_build]
  simp only [List.map_cons, List.map_nil, scenario_mark_0, scenario_mark_1, scenario_mark_2,
    scenario_length]
  simp [scenario_outcome, initial_search]

/-- The run of Scenario A: one round, which commits row `0` at entropy `2`. -/
theorem scenario_run : greedy_outliers scenario_dataset 1 = some scenario_outcome := by
  have hround := round_of_some (initial_search scenario_dataset) 0 scenario_scan_index
  rw [scenario_scan_entropy, scenario_scan_evaluated] at hround
  have hnot : ¬ 1 > scenario_dataset.data.length := by rw [scenario_length]; omega
  unfold greedy_outliers greedy_outliers_fuel
  rw [if_neg hnot]
  have hcard : (initial_search scenario_dataset).outliers.card < 1 := by simp [initial_search]
  have hd : (initial_search scenario_dataset).dataset = scenario_dataset := rfl
  have ho : (initial_search scenario_dataset).outliers = ∅ := rfl
  rw [hd, ho, scenario_mark_0] at hround
  simp [search_loop, hcard, hround, scenario_outcome]
  rfl

/-! ## The claims -/

/-- C2: if `greedy_outliers dataset k` returns a `Result`, its `outliers` set
has exactly `k` elements (pairwise distinct, being a set), each of them a row
index below `n`. -/
theorem outliers_card_and_range (dataset : Dataset) (k : Nat) (o : Outcome) (R : Result)
    (hrun : greedy_outliers dataset k = some o) (hok : o.result = Except.ok R) :
    R.outliers.card = k ∧ ∀ i ∈ R.outliers, i < dataset.data.length := by
  obtain ⟨_, t, ht, hR, _, _⟩ := greedy_outliers_ok dataset k o R hrun hok
  obtain ⟨_, f2, _, f4, _, _⟩ := run_rounds_facts k (initial_search dataset) t ht
  rw [hR]
  refine ⟨by rw [f2, initial_search_card, Nat.zero_add], ?_⟩
  intro i hi
  rcases f4 i hi with h | h
  · simp [initial_search] at h
  · exact h

/-- Scenario A with `k = 1`: the returned set `{0}` has one element, a row index. -/
theorem outliers_card_and_range_witness :
    greedy_outliers scenario_dataset 1 = some scenario_outcome ∧
      ({0} : Finset Nat).card = 1 ∧ ∀ i ∈ ({0} : Finset Nat), i < scenario_dataset.data.length :=
  ⟨scenario_run,
    outliers_card_and_range scenario_dataset 1 scenario_outcome { outliers := {0}, entropy := 2 }
      scenario_run rfl⟩

/-- C3: for data whose rows all have `d` fields, start from the table that
`read` builds; after committing `mark_outlier` for any list of distinct row
indices, each on the current table, the table agrees (same dimensions, same
keys, same counts) with the table built over the remaining rows.  In
particular, when `greedy_outliers` succeeds, `dataset.occurences` agrees with
the table built over the rows whose index is not in `Result.outliers`. -/
theorem incremental_equals_rebuild (data : Data) (d : Nat)
    (hrows : ∀ row ∈ data, row.length = d) :
    (∀ removed : List Nat, removed.Nodup → (∀ i ∈ removed, i < data.length) →
      same_table (commit_all data (build d data) removed)
        (build d (remaining_rows data removed.toFinset))) ∧
    (∀ k o R, greedy_outliers { data := data, occurences := build d data } k = some o →
      o.result = Except.ok R →
      same_table o.dataset.occurences (build d (remaining_rows data R.outliers))) := by
  constructor
  · intro removed hnd hlt
    have h0 : Tracks (build d data) d (remaining_rows data ∅) := by
      rw [remaining_rows_empty]
      exact tracks_build d data
    have h := tracks_commit_all data d hrows removed (build d data) ∅ h0
      (fun i hi => ⟨by simp, hlt i hi⟩) hnd
    rw [Finset.empty_union] at h
    exact tracks_same_table h (tracks_build d _)
  · intro k o R hrun hok
    obtain ⟨_, t, ht, hR, hds, _⟩ := greedy_outliers_ok _ k o R hrun hok
    have hc := consistent_run_rounds data d hrows k _ t ht (consistent_initial data d)
    rw [hds, hR]
    exact tracks_same_table hc.2.2 (tracks_build d _)

/-- The rows of Scenario A have three fields each; rows `2` and `0` are committed. -/
theorem incremental_equals_rebuild_witness :
    (∀ row ∈ scenario_data, row.length = 3) ∧
      same_table (commit_all scenario_data (build 3 scenario_data) [2, 0])
        (build 3 (remaining_rows scenario_data ([2, 0] : List Nat).toFinset)) :=
  ⟨by decide,
    (incremental_equals_rebuild scenario_data 3 (by decide)).1 [2, 0] (by decide) (by decide)⟩

/-- C4: for a dataset and a row index such that, in every dimension `i` of the
row, the value `row[i]` has a count of at least one in `dataset.occurences[i]`,
`mark_outlier` returns a table with the same dimensions in which, in every
dimension `i` of the row, the count of `row[i]` is one less (the key being
absent when that is zero) and every other value has the entry it had; the
dimensions beyond the row are as they were.  The dataset is passed by const
reference and the embedding is a function of it, so the input table is left
as it was. -/
theorem mark_outlier_decrements (dataset : Dataset) (index : Nat)
    (hindex : index < dataset.data.length)
    (hpresent : ∀ i, i < (dataset.data.getD index []).length →
      1 ≤ OccMap.get (dataset.occurences.getD i []) ((dataset.data.getD index []).getD i "")) :
    (mark_outlier dataset index).length = dataset.occurences.length ∧
    (∀ i, i < (dataset.data.getD index []).length →
      OccMap.find ((mark_outlier dataset index).getD i [])
          ((dataset.data.getD index []).getD i "") =
        (if OccMap.get (dataset.occurences.getD i [])
            ((dataset.data.getD index []).getD i "") = 1 then none
          else some (OccMap.get (dataset.occurences.getD i [])
            ((dataset.data.getD index []).getD i "") - 1)) ∧
      ∀ w, w ≠ (dataset.data.getD index []).getD i "" →
        OccMap.find ((mark_outlier dataset index).getD i []) w =
          OccMap.find (dataset.occurences.getD i []) w) ∧
    (∀ i, (dataset.data.getD index []).length ≤ i →
      (mark_outlier dataset index).getD i [] = dataset.occurences.getD i []) := by
  have _ := hindex
  refine ⟨mark_outlier_length dataset index, ?_, ?_⟩
  · intro i hi
    have hp := hpresent i hi
    have hfind : ∃ c, OccMap.find (dataset.occurences.getD i [])
        ((dataset.data.getD index []).getD i "") = some (c + 1) := by
      unfold OccMap.get at hp
      cases hf : OccMap.find (dataset.occurences.getD i [])
          ((dataset.data.getD index []).getD i "") with
      | none => rw [hf] at hp; simp at hp
      | some c =>
        rw [hf] at hp
        simp only [Option.getD_some] at hp
        exact ⟨c - 1, by congr 1; omega⟩
    obtain ⟨c, hc⟩ := hfind
    have hdim : ∃ m, dataset.occurences[i]? = some m := by
      cases hm : dataset.occurences[i]? with
      | none =>
        have : dataset.occurences.getD i [] = [] := by simp [List.getD, hm]
        rw [this] at hc
        simp [OccMap.find] at hc
      | some m => exact ⟨m, rfl⟩
    obtain ⟨m, hm⟩ := hdim
    have e0 : dataset.occurences.getD i [] = m := by simp [List.getD, hm]
    have e1 : (mark_outlier dataset index).getD i [] =
        OccMap.decrement m ((dataset.data.getD index []).getD i "") := by
      have := mark_outlier_getElem? dataset index i
      rw [if_pos hi, hm] at this
      rw [getD_eq_getElem?_getD, this]
      rfl
    rw [e0] at hc ⊢
    rw [e1]
    constructor
    · rw [OccMap.find_decrement_self m _ c hc, OccMap.get_eq_of_find hc]
      by_cases h0 : c = 0
      · simp [h0]
      · simp [h0]
    · intro w hw
      exact OccMap.find_decrement_ne m hw
  · intro i hi
    have := mark_outlier_getElem? dataset index i
    rw [if_neg (by omega)] at this
    rw [getD_eq_getElem?_getD, getD_eq_getElem?_getD, this]

/-- Row `0` of Scenario A has all its values counted in the table built from the rows. -/
theorem mark_outlier_decrements_witness :
    (0 < scenario_dataset.data.length ∧
      ∀ i, i < (scenario_dataset.data.getD 0 []).length →
        1 ≤ OccMap.get (scenario_dataset.occurences.getD i [])
          ((scenario_dataset.data.getD 0 []).getD i "")) ∧
    (mark_outlier scenario_dataset 0).length = scenario_dataset.occurences.length :=
  ⟨⟨by decide, by decide⟩,
    (mark_outlier_decrements scenario_dataset 0 (by decide) (by decide)).1⟩

/-- Over the reals, where the sum of `entropy` does not depend on the order of
the entries: for a dataset whose rows all have `d` fields and whose table is
the one `read` builds from them, the entropy that a successful call returns is
the entropy of `dataset.occurences` as the call leaves it, and the entropy of
the table built over the rows whose index is not in the returned outliers. -/
theorem real_entropy_of_remaining (data : Data) (d : Nat)
    (hrows : ∀ row ∈ data, row.length = d) (k : Nat) (o : Outcome) (R : Result)
    (hrun : greedy_outliers { data := data, occurences := build d data } k = some o)
    (hok : o.result = Except.ok R) :
    R.entropy = entropy (build d (remaining_rows data R.outliers)) (data.length - k) ∧
    R.entropy = entropy o.dataset.occurences (data.length - k) ∧
    (k = 0 → R.outliers = ∅ ∧ R.entropy = entropy (build d data) data.length) := by
  obtain ⟨_, t, ht, hR, hds, _⟩ := greedy_outliers_ok _ k o R hrun hok
  have hc := consistent_run_rounds data d hrows k _ t ht (consistent_initial data d)
  have he := entropy_current_run_rounds k _ t ht (entropy_current_initial _)
  obtain ⟨_, f2, _, _, _, _⟩ := run_rounds_facts k _ t ht
  rw [initial_search_card, Nat.zero_add] at f2
  unfold entropy_current at he
  rw [hc.1, f2] at he
  have hcur : R.entropy = entropy o.dataset.occurences (data.length - k) := by
    rw [hR, hds]
    exact he
  have hrem : R.entropy = entropy (build d (remaining_rows data R.outliers)) (data.length - k) := by
    rw [hcur, hds, hR]
    exact entropy_eq_of_tracks hc.2.2 (tracks_build d _) _
  refine ⟨hrem, hcur, ?_⟩
  intro hk
  subst hk
  have ht0 : t = initial_search { data := data, occurences := build d data } := by
    have : after_rounds { data := data, occurences := build d data } 0 =
        some (initial_search { data := data, occurences := build d data }) := rfl
    rw [this] at ht
    cases ht
    rfl
  rw [hR, ht0]
  exact ⟨rfl, rfl⟩

/-- C6: in a successful run of `greedy_outliers dataset k` the committed
entropies `e 0, ..., e k` (`e 0` the baseline entropy over all `n` rows, `e r`
the value of `bestEntropy` after round `r`, `e k` the returned entropy) are
strictly decreasing; in particular the returned entropy is below the baseline
whenever `k ≥ 1`. -/
theorem committed_entropies_decreasing (dataset : Dataset) (k : Nat) (o : Outcome) (R : Result)
    (hrun : greedy_outliers dataset k = some o) (hok : o.result = Except.ok R) :
    ∃ e : Nat → ℝ,
      e 0 = entropy dataset.occurences dataset.data.length ∧
      (∀ r, r ≤ k → ∃ s, after_rounds dataset r = some s ∧ s.bestEntropy = e r) ∧
      e k = R.entropy ∧
      (∀ r, r < k → e (r + 1) < e r) ∧
      (1 ≤ k → R.entropy < entropy dataset.occurences dataset.data.length) := by
  obtain ⟨_, t, ht, hR, _, _⟩ := greedy_outliers_ok dataset k o R hrun hok
  have hstate : ∀ r, r ≤ k → ∃ s, after_rounds dataset r = some s :=
    fun r hr => run_rounds_some_mono r k hr _ t ht
  refine ⟨fun r => ((after_rounds dataset r).map Search.bestEntropy).getD 0, rfl, ?_, ?_, ?_, ?_⟩
  · intro r hr
    obtain ⟨s, hs⟩ := hstate r hr
    exact ⟨s, hs, by simp [hs]⟩
  · simp [ht, hR]
  · intro r hr
    obtain ⟨s, hs⟩ := hstate r (by omega)
    obtain ⟨u, hu⟩ := hstate (r + 1) (by omega)
    have hround := (after_rounds_succ_some dataset r s u hs).mp hu
    obtain ⟨_, _, _, _, _, _, hlt⟩ := round_ok_facts s u hround
    simp only [hs, hu, Option.map_some', Option.getD_some]
    exact hlt
  · intro hk
    obtain ⟨_, _, _, _, _, f6⟩ := run_rounds_facts k (initial_search dataset) t ht
    rw [hR]
    exact f6 (by omega)

/-- Scenario A with `k = 1`: the committed entropy `2` is below the baseline. -/
theorem committed_entropies_decreasing_witness :
    greedy_outliers scenario_dataset 1 = some scenario_outcome ∧
      ∃ e : Nat → ℝ,
        e 0 = entropy scenario_dataset.occurences scenario_dataset.data.length ∧
        (∀ r, r ≤ 1 → ∃ s, after_rounds scenario_dataset r = some s ∧ s.bestEntropy = e r) ∧
        e 1 = 2 ∧
        (∀ r, r < 1 → e (r + 1) < e r) ∧
        (1 ≤ 1 → (2 : ℝ) < entropy scenario_dataset.occurences scenario_dataset.data.length) :=
  ⟨scenario_run,
    committed_entropies_decreasing scenario_dataset 1 scenario_outcome
      { outliers := {0}, entropy := 2 } scenario_run rfl⟩

/-- C7: for `k ≤ n` the call `greedy_outliers dataset k` terminates, and it
fails with the "no improvement" error (returning no `Result`) if and only if
there is a round `r < k`, reached after `r` committed rounds, in which no row
outside `outliers` has a candidate entropy strictly below the current
`bestEntropy`.  The failure happens at the first such round: the dataset is
left as that round found it, and no earlier round is without improvement. -/
theorem no_improvement_failure (dataset : Dataset) (k : Nat) (hk : k ≤ dataset.data.length) :
    ∃ o, greedy_outliers dataset k = some o ∧
      (o.result = Except.error Error.no_improvement ↔
        ∃ r s, r < k ∧ after_rounds dataset r = some s ∧ no_improvement s) ∧
      (o.result = Except.error Error.no_improvement → ∀ R, o.result ≠ Except.ok R) ∧
      (∀ r s, r < k → after_rounds dataset r = some s → no_improvement s →
        o.dataset = s.dataset ∧
        ∀ r2 s2, r2 < r → after_rounds dataset r2 = some s2 → ¬ no_improvement s2) := by
  have hfirst : ∀ r s, after_rounds dataset r = some s → no_improvement s →
      ∀ r2 s2, r2 < r → after_rounds dataset r2 = some s2 → ¬ no_improvement s2 := by
    intro r s hs _ r2 s2 hr2 hs2 hno2
    obtain ⟨u, hu⟩ := (round_error_iff s2).mpr hno2
    rw [after_rounds_none_of_error dataset r2 r s2 u _ hs2 hu hr2] at hs
    cases hs
  rcases greedy_outliers_spec dataset k hk with ⟨t, ht, hres⟩ | ⟨r, t, t1, hr, ht, hrd, hres⟩
  · refine ⟨_, hres, ?_, ?_, ?_⟩
    · constructor
      · intro h
        cases h
      · rintro ⟨r, s, hr, hs, hno⟩
        obtain ⟨u, hu⟩ := (round_error_iff s).mpr hno
        rw [after_rounds_none_of_error dataset r k s u _ hs hu hr] at ht
        cases ht
    · intro h
      cases h
    · intro r s hr hs hno
      obtain ⟨u, hu⟩ := (round_error_iff s).mpr hno
      rw [after_rounds_none_of_error dataset r k s u _ hs hu hr] at ht
      cases ht
  · refine ⟨_, hres, ?_, ?_, ?_⟩
    · constructor
      · intro _
        exact ⟨r, t, hr, ht, (round_error_iff t).mp ⟨t1, hrd⟩⟩
      · intro _
        rfl
    · intro _ R h
      cases h
    · intro r2 s2 _ hs2 hno2
      obtain ⟨u, hu⟩ := (round_error_iff s2).mpr hno2
      have hrr := failing_round_unique dataset r r2 t t1 s2 u _ _ ht hrd hs2 hu
      subst hrr
      rw [ht] at hs2
      cases hs2
      refine ⟨?_, hfirst r t ht hno2⟩
      simp only
      rw [(round_error t t1 _ hrd).2.2]

/-- Scenario A with `k = 1 ≤ 3`. -/
theorem no_improvement_failure_witness :
    1 ≤ scenario_dataset.data.length ∧
      ∃ o, greedy_outliers scenario_dataset 1 = some o ∧
        (o.result = Except.error Error.no_improvement ↔
          ∃ r s, r < 1 ∧ after_rounds scenario_dataset r = some s ∧ no_improvement s) ∧
        (o.result = Except.error Error.no_improvement → ∀ R, o.result ≠ Except.ok R) ∧
        (∀ r s, r < 1 → after_rounds scenario_dataset r = some s → no_improvement s →
          o.dataset = s.dataset ∧
          ∀ r2 s2, r2 < r → after_rounds scenario_dataset r2 = some s2 → ¬ no_improvement s2) :=
  ⟨by decide, no_improvement_failure scenario_dataset 1 (by decide)⟩

/-- C8: for `k > n` the call `greedy_outliers dataset k` throws the "K
parameter exceeds number of data points" error before any work: the log of
`entropy` calls is empty and the dataset (data and occurences) is the one
passed in. -/
theorem k_exceeds_before_any_work (dataset : Dataset) (k : Nat)
    (hk : k > dataset.data.length) :
    greedy_outliers dataset k = some
      { result := Except.error Error.k_exceeds, dataset := dataset, evaluated := [] } :=
  greedy_outliers_of_gt dataset k hk

/-- Scenario B: the three rows of Scenario A with `k = 4`. -/
theorem k_exceeds_before_any_work_witness :
    4 > scenario_dataset.data.length ∧
      greedy_outliers scenario_dataset 4 = some
        { result := Except.error Error.k_exceeds, dataset := scenario_dataset, evaluated := [] } :=
  ⟨by decide, k_exceeds_before_any_work scenario_dataset 4 (by decide)⟩

/-- C9, as stated, fails for a table with a count above `n_active`: one
dimension with a count of `2` and `n_active = 1` gives the entropy `-2`. -/
theorem entropy_nonneg_counterexample :
    0 < 1 ∧ entropy [[("a", 2)]] 1 = -2 ∧ ¬ (0 ≤ entropy [[("a", 2)]] 1) := by
  have h : entropy [[("a", 2)]] 1 = -2 := by
    simp only [entropy, List.foldl_cons, List.foldl_nil]
    norm_num
  refine ⟨by decide, h, ?_⟩
  rw [h]
  norm_num

/-- C9, amended: for any occurrence table whose counts all lie between `1` and
`n_active` (and `n_active > 0`), the entropy, taken as the real-valued sum of
`-p * log2(p)` with `p = count / n_active`, is at least `0`. -/
theorem entropy_nonneg_of_bounded_counts (occurences : Occurences) (numDataPoints : Nat)
    (hn : 0 < numDataPoints)
    (hcounts : ∀ m ∈ occurences, ∀ e ∈ m, 1 ≤ e.2 ∧ e.2 ≤ numDataPoints) :
    0 ≤ entropy occurences numDataPoints := by
  rw [entropy_eq_sum]
  have hterm : ∀ c : Nat, 1 ≤ c → c ≤ numDataPoints → entry_term numDataPoints c ≤ 0 := by
    intro c h1 h2
    unfold entry_term
    have hnpos : (0 : ℝ) < (numDataPoints : ℝ) := by exact_mod_cast hn
    have hcpos : (0 : ℝ) < (c : ℝ) := by exact_mod_cast h1
    have hp0 : (0 : ℝ) < (c : ℝ) / (numDataPoints : ℝ) := div_pos hcpos hnpos
    have hp1 : (c : ℝ) / (numDataPoints : ℝ) ≤ 1 := by
      rw [div_le_one hnpos]
      exact_mod_cast h2
    have hlog : Real.logb 2 ((c : ℝ) / (numDataPoints : ℝ)) ≤ 0 :=
      Real.logb_nonpos (by norm_num) (le_of_lt hp0) hp1
    exact mul_nonpos_of_nonneg_of_nonpos (le_of_lt hp0) hlog
  have hdim : ∀ m ∈ occurences, dimension_sum numDataPoints m ≤ 0 := by
    intro m hm
    unfold dimension_sum
    apply list_sum_nonpos
    intro x hx
    obtain ⟨e, he, rfl⟩ := List.mem_map.mp hx
    exact hterm e.2 (hcounts m hm e he).1 (hcounts m hm e he).2
  have hsum : (occurences.map (dimension_sum numDataPoints)).sum ≤ 0 := by
    apply list_sum_nonpos
    intro x hx
    obtain ⟨m, hm, rfl⟩ := List.mem_map.mp hx
    exact hdim m hm
  linarith

/-- The table built from the rows of Scenario A has counts between `1` and `3`. -/
theorem entropy_nonneg_of_bounded_counts_witness :
    (0 < 3 ∧ ∀ m ∈ build 3 scenario_data, ∀ e ∈ m, 1 ≤ e.2 ∧ e.2 ≤ 3) ∧
      0 ≤ entropy (build 3 scenario_data) 3 :=
  ⟨⟨by decide, by decide⟩,
    entropy_nonneg_of_bounded_counts (build 3 scenario_data) 3 (by decide) (by decide)⟩

/-- C10: Scenario A.  For the rows `["1","2","a"]`, `["0","1","b"]`,
`["0","2","c"]` with the table that `read` builds and `k = 1`, the candidate
entropies for removing rows `0`, `1`, `2` are `2`, `2` and `3`, and
`greedy_outliers` returns `outliers = {0}` and `entropy = 2`. -/
theorem scenario_A_result :
    scenario_dataset.data = [["1", "2", "a"], ["0", "1", "b"], ["0", "2", "c"]] ∧
    scenario_dataset.occurences = build 3 scenario_dataset.data ∧
    candidate_entropy scenario_dataset ∅ 0 = 2 ∧
    candidate_entropy scenario_dataset ∅ 1 = 2 ∧
    candidate_entropy scenario_dataset ∅ 2 = 3 ∧
    ∃ o, greedy_outliers scenario_dataset 1 = some o ∧
      o.result = Except.ok { outliers := {0}, entropy := 2 } :=
  ⟨rfl, rfl, scenario_candidate_0, scenario_candidate_1, scenario_candidate_2,
    scenario_outcome, scenario_run, rfl⟩

/-! ## Counts of a table that tracks rows -/

theorem occurrences_of_eq_count (rows : Data) (i : Nat) (v : String) :
    occurrences_of rows i v = (rows.map (fun r => r.getD i "")).count v := by
  unfold occurrences_of
  rw [List.count, List.countP_map]
  congr 1

theorem occurrences_of_le_length (rows : Data) (i : Nat) (v : String) :
    occurrences_of rows i v ≤ rows.length := by
  unfold occurrences_of
  exact List.countP_le_length _

theorem count_sum_of_counts (m : OccMap) :
    ∀ (col : List String), (OccMap.keys m).Nodup →
      (∀ v, OccMap.find m v = entry_of_count (col.count v)) → count_sum m = col.length := by
  induction m with
  | nil =>
    intro col _ h
    cases col with
    | nil => rfl
    | cons a col =>
      have := h a
      simp [OccMap.find, entry_of_count] at this
  | cons e m ih =>
    obtain ⟨u, c⟩ := e
    intro col hnd h
    have h1 : u ∉ OccMap.keys m := ((OccMap.keys_cons_nodup u c m).mp hnd).1
    have h2 : (OccMap.keys m).Nodup := ((OccMap.keys_cons_nodup u c m).mp hnd).2
    have hc : c = col.count u := by
      have := h u
      simp only [OccMap.find, if_true, entry_of_count] at this
      split_ifs at this with h0
      · cases this
        rfl
    have hrest : ∀ v, OccMap.find m v =
        entry_of_count ((col.filter (fun w => decide (w ≠ u))).count v) := by
      intro v
      by_cases hv : v = u
      · subst hv
        have hnone : OccMap.find m v = none := by
          by_contra hne
          exact h1 ((OccMap.mem_keys_iff m v).mpr hne)
        rw [hnone]
        have : (col.filter (fun w => decide (w ≠ v))).count v = 0 := by
          rw [List.count_eq_zero]
          intro hmem
          have := (List.mem_filter.mp hmem).2
          simp at this
        rw [this]
        rfl
      · have hfind := h v
        have huv : ¬ u = v := fun h => hv h.symm
        simp only [OccMap.find, huv, if_false] at hfind
        rw [hfind]
        congr 1
        rw [List.count_filter]
        simp [hv]
    have hih := ih (col.filter (fun w => decide (w ≠ u))) h2 hrest
    have hlen : col.length = col.count u + (col.filter (fun w => decide (w ≠ u))).length := by
      have := List.length_eq_countP_add_countP (fun w => decide (w = u)) col
      rw [this, List.count, List.countP_eq_length_filter (fun a => decide ¬(decide (a = u)) = true)]
      congr 2
      congr 1
      funext w
      by_cases hw : w = u <;> simp [hw]
    unfold count_sum at hih ⊢
    simp only [List.map_cons, List.sum_cons]
    rw [hih, hc, hlen]

theorem count_sum_of_tracks {T : Occurences} {d : Nat} {rows : Data} (h : Tracks T d rows) :
    sums_to T rows.length := by
  intro m hm
  obtain ⟨i, hi, hget⟩ := List.getElem_of_mem hm
  have hid : i < d := by rw [← h.1]; exact hi
  obtain ⟨m2, hm2, hnd, hfind⟩ := h.2 i hid
  have hmm : m2 = m := by
    rw [List.getElem?_eq_getElem hi, hget] at hm2
    cases hm2
    rfl
  subst hmm
  have := count_sum_of_counts m2 (rows.map (fun r => r.getD i "")) hnd
    (fun v => by rw [hfind v, occurrences_of_eq_count])
  rw [this, List.length_map]

theorem entries_of_tracks {T : Occurences} {d : Nat} {rows : Data} (h : Tracks T d rows) :
    ∀ m ∈ T, (OccMap.keys m).Nodup ∧ ∀ e ∈ m, 1 ≤ e.2 ∧ e.2 ≤ rows.length := by
  intro m hm
  obtain ⟨i, hi, hget⟩ := List.getElem_of_mem hm
  have hid : i < d := by rw [← h.1]; exact hi
  obtain ⟨m2, hm2, hnd, hfind⟩ := h.2 i hid
  have hmm : m2 = m := by
    rw [List.getElem?_eq_getElem hi, hget] at hm2
    cases hm2
    rfl
  subst hmm
  refine ⟨hnd, ?_⟩
  rintro ⟨v, c⟩ he
  have hf := (OccMap.mem_iff_find m2 hnd v c).mp he
  rw [hfind v] at hf
  unfold entry_of_count at hf
  split_ifs at hf with h0
  cases hf
  exact ⟨by omega, occurrences_of_le_length rows i v⟩

theorem positive_counts_of_tracks {T : Occurences} {d : Nat} {rows : Data} (h : Tracks T d rows) :
    positive_counts T := by
  refine ⟨?_, fun m hm e he => ((entries_of_tracks h m hm).2 e he).1⟩
  intro i v
  by_cases hi : i < d
  · obtain ⟨m, hm, _, hfind⟩ := h.2 i hi
    have e : T.getD i [] = m := by rw [getD_eq_getElem?_getD, hm]; rfl
    rw [e, OccMap.mem_keys_iff, OccMap.get, hfind v]
    unfold entry_of_count
    split_ifs with h0
    · simp
    · simp
      omega
  · have e : T.getD i [] = [] := by
      have : T.length ≤ i := by rw [h.1]; omega
      rw [getD_eq_getElem?_getD, List.getElem?_eq_none this]
      rfl
    rw [e]
    simp [OccMap.keys, OccMap.get, OccMap.find]

theorem remaining_rows_length_insert (data : Data) (removed : Finset Nat) (idx : Nat)
    (hidx : idx ∉ removed) (hlt : idx < data.length) :
    (remaining_rows data (insert idx removed)).length + 1 =
      (remaining_rows data removed).length := by
  have h := countP_filter_enumFrom (fun _ => true)
    (fun j => decide (j ∉ insert idx removed)) (fun j => decide (j ∉ removed)) idx
    (by simp) (by simp [hidx])
    (by intro j hj; simp [Finset.mem_insert, hj]) data 0 (Nat.zero_le _) (by omega)
  simp only [if_true, List.countP_true] at h
  exact h

theorem remaining_rows_length (data : Data) (removed : Finset Nat) :
    (∀ i ∈ removed, i < data.length) →
      (remaining_rows data removed).length = data.length - removed.card := by
  refine Finset.induction_on removed ?_ ?_
  · intro _
    rw [remaining_rows_empty]
    simp
  · intro a s ha ih hall
    have hs := ih (fun i hi => hall i (Finset.mem_insert_of_mem hi))
    have ha2 := hall a (Finset.mem_insert_self a s)
    have := remaining_rows_length_insert data s a ha ha2
    rw [Finset.card_insert_of_not_mem ha]
    omega

/-! ## Sign and zeros of the entropy -/

theorem entry_term_nonpos (n c : Nat) (h1 : 1 ≤ c) (h2 : c ≤ n) : entry_term n c ≤ 0 := by
  unfold entry_term
  have hn : 0 < n := by omega
  have hnpos : (0 : ℝ) < (n : ℝ) := by exact_mod_cast hn
  have hcpos : (0 : ℝ) < (c : ℝ) := by exact_mod_cast h1
  have hp0 : (0 : ℝ) < (c : ℝ) / (n : ℝ) := div_pos hcpos hnpos
  have hp1 : (c : ℝ) / (n : ℝ) ≤ 1 := by
    rw [div_le_one hnpos]
    exact_mod_cast h2
  have hlog : Real.logb 2 ((c : ℝ) / (n : ℝ)) ≤ 0 :=
    Real.logb_nonpos (by norm_num) (le_of_lt hp0) hp1
  exact mul_nonpos_of_nonneg_of_nonpos (le_of_lt hp0) hlog

theorem entry_term_eq_zero_iff (n c : Nat) (h1 : 1 ≤ c) (h2 : c ≤ n) :
    entry_term n c = 0 ↔ c = n := by
  unfold entry_term
  have hn : 0 < n := by omega
  have hnpos : (0 : ℝ) < (n : ℝ) := by exact_mod_cast hn
  have hcpos : (0 : ℝ) < (c : ℝ) := by exact_mod_cast h1
  have hp0 : (0 : ℝ) < (c : ℝ) / (n : ℝ) := div_pos hcpos hnpos
  constructor
  · intro h
    rcases mul_eq_zero.mp h with h0 | h0
    · exact absurd h0 (ne_of_gt hp0)
    · have hone : (c : ℝ) / (n : ℝ) = 1 :=
        Real.eq_one_of_pos_of_logb_eq_zero (by norm_num) hp0 h0
      rw [div_eq_one_iff_eq (ne_of_gt hnpos)] at hone
      exact_mod_cast hone
  · intro h
    subst h
    rw [div_self (ne_of_gt hnpos), Real.logb_one, mul_zero]

theorem list_sum_eq_zero_iff_of_nonpos (l : List ℝ) (h : ∀ x ∈ l, x ≤ 0) :
    l.sum = 0 ↔ ∀ x ∈ l, x = 0 := by
  induction l with
  | nil => simp
  | cons a l ih =>
    have ha := h a (List.mem_cons_self _ _)
    have hl : ∀ x ∈ l, x ≤ 0 := fun x hx => h x (List.mem_cons_of_mem _ hx)
    have hs := list_sum_nonpos l hl
    rw [List.sum_cons]
    constructor
    · intro hsum
      have ha0 : a = 0 := by linarith
      have hl0 : l.sum = 0 := by linarith
      intro x hx
      rcases List.mem_cons.mp hx with rfl | hx
      · exact ha0
      · exact (ih hl).mp hl0 x hx
    · intro hall
      have ha0 := hall a (List.mem_cons_self _ _)
      have hl0 := (ih hl).mpr (fun x hx => hall x (List.mem_cons_of_mem _ hx))
      rw [ha0, hl0, add_zero]

theorem dimension_sum_nonpos (n : Nat) (m : OccMap) (h : ∀ e ∈ m, 1 ≤ e.2 ∧ e.2 ≤ n) :
    dimension_sum n m ≤ 0 := by
  unfold dimension_sum
  apply list_sum_nonpos
  intro x hx
  obtain ⟨e, he, rfl⟩ := List.mem_map.mp hx
  exact entry_term_nonpos n e.2 (h e he).1 (h e he).2

theorem dimension_sum_eq_zero_iff (n : Nat) (m : OccMap) (h : ∀ e ∈ m, 1 ≤ e.2 ∧ e.2 ≤ n) :
    dimension_sum n m = 0 ↔ ∀ e ∈ m, e.2 = n := by
  unfold dimension_sum
  rw [list_sum_eq_zero_iff_of_nonpos]
  · constructor
    · intro hall e he
      exact (entry_term_eq_zero_iff n e.2 (h e he).1 (h e he).2).mp
        (hall _ (List.mem_map.mpr ⟨e, he, rfl⟩))
    · intro hall x hx
      obtain ⟨e, he, rfl⟩ := List.mem_map.mp hx
      exact (entry_term_eq_zero_iff n e.2 (h e he).1 (h e he).2).mpr (hall e he)
  · intro x hx
    obtain ⟨e, he, rfl⟩ := List.mem_map.mp hx
    exact entry_term_nonpos n e.2 (h e he).1 (h e he).2

/-- A table whose counts lie between `1` and `numDataPoints` has a
non-negative entropy. -/
theorem entropy_nonneg_of_bounds (T : Occurences) (n : Nat)
    (h : ∀ m ∈ T, ∀ e ∈ m, 1 ≤ e.2 ∧ e.2 ≤ n) : 0 ≤ entropy T n := by
  rw [entropy_eq_sum]
  have hsum : (T.map (dimension_sum n)).sum ≤ 0 := by
    apply list_sum_nonpos
    intro x hx
    obtain ⟨m, hm, rfl⟩ := List.mem_map.mp hx
    exact dimension_sum_nonpos n m (h m hm)
  linarith

/-- A table whose counts lie between `1` and `numDataPoints` has entropy zero
exactly when every count is `numDataPoints`. -/
theorem entropy_eq_zero_iff_counts (T : Occurences) (n : Nat)
    (h : ∀ m ∈ T, ∀ e ∈ m, 1 ≤ e.2 ∧ e.2 ≤ n) :
    entropy T n = 0 ↔ ∀ m ∈ T, ∀ e ∈ m, e.2 = n := by
  rw [entropy_eq_sum, neg_eq_zero, list_sum_eq_zero_iff_of_nonpos]
  · constructor
    · intro hall m hm
      exact (dimension_sum_eq_zero_iff n m (h m hm)).mp
        (hall _ (List.mem_map.mpr ⟨m, hm, rfl⟩))
    · intro hall x hx
      obtain ⟨m, hm, rfl⟩ := List.mem_map.mp hx
      exact (dimension_sum_eq_zero_iff n m (h m hm)).mpr (hall m hm)
  · intro x hx
    obtain ⟨m, hm, rfl⟩ := List.mem_map.mp hx
    exact dimension_sum_nonpos n m (h m hm)

theorem count_le_count_sum (m : OccMap) : ∀ e ∈ m, e.2 ≤ count_sum m := by
  induction m with
  | nil => intro e he; cases he
  | cons a m ih =>
    intro e he
    unfold count_sum at ih ⊢
    simp only [List.map_cons, List.sum_cons]
    rcases List.mem_cons.mp he with rfl | he
    · omega
    · have := ih e he
      omega

/-- With positive counts that sum to `n ≥ 1`, every count is `n` exactly when
the dimension holds a single value. -/
theorem single_value_iff (m : OccMap) (n : Nat) (hn : 1 ≤ n) (hpos : ∀ e ∈ m, 0 < e.2)
    (hsum : count_sum m = n) : (∀ e ∈ m, e.2 = n) ↔ ∃ v, m = [(v, n)] := by
  constructor
  · intro hall
    cases m with
    | nil =>
      unfold count_sum at hsum
      simp at hsum
      omega
    | cons a m =>
      have ha := hall a (List.mem_cons_self _ _)
      cases m with
      | nil => exact ⟨a.1, by rw [← ha]⟩
      | cons b m =>
        have hb := hpos b (List.mem_cons_of_mem _ (List.mem_cons_self _ _))
        unfold count_sum at hsum
        simp only [List.map_cons, List.sum_cons] at hsum
        omega
  · rintro ⟨v, rfl⟩ e he
    rw [List.mem_singleton] at he
    rw [he]

/-! ## The states reached from a dataset that `read` built -/

theorem dataset_eq_of_data {ds : Dataset} {data : Data} (h : ds.data = data) :
    ds = { data := data, occurences := ds.occurences } := by
  cases ds with
  | mk dd oo =>
    simp only at h
    rw [h]

theorem after_rounds_facts (data : Data) (d : Nat) (hrows : ∀ row ∈ data, row.length = d)
    (r : Nat) (s : Search)
    (hs : after_rounds { data := data, occurences := build d data } r = some s) :
    Consistent data d s ∧ entropy_current s ∧ s.outliers.card = r := by
  refine ⟨consistent_run_rounds data d hrows r _ s hs (consistent_initial data d),
    entropy_current_run_rounds r _ s hs (entropy_current_initial _), ?_⟩
  obtain ⟨_, f2, _, _, _, _⟩ := run_rounds_facts r _ s hs
  rw [f2, initial_search_card, Nat.zero_add]

theorem candidate_tracks (data : Data) (d : Nat) (hrows : ∀ row ∈ data, row.length = d)
    (s : Search) (hc : Consistent data d s) (j : Nat) (hj : j < data.length)
    (hjO : j ∉ s.outliers) :
    Tracks (mark_outlier s.dataset j) d (remaining_rows data (insert j s.outliers)) := by
  rw [dataset_eq_of_data hc.1]
  exact tracks_mark_outlier data s.dataset.occurences d s.outliers j
    (row_length_of_uniform data d hrows j hj) hjO hj hc.2.2

theorem candidate_rows_length (data : Data) (d : Nat) (s : Search) (hc : Consistent data d s)
    (j : Nat) (hj : j < data.length) (hjO : j ∉ s.outliers) :
    (remaining_rows data (insert j s.outliers)).length =
      s.dataset.data.length - s.outliers.card - 1 := by
  rw [remaining_rows_length, Finset.card_insert_of_not_mem hjO, hc.1, Nat.sub_sub]
  intro i hi
  rcases Finset.mem_insert.mp hi with rfl | hi
  · exact hj
  · exact hc.2.1 i hi

theorem candidate_entropy_nonneg (data : Data) (d : Nat) (hrows : ∀ row ∈ data, row.length = d)
    (s : Search) (hc : Consistent data d s) (j : Nat) (hj : j < data.length)
    (hjO : j ∉ s.outliers) : 0 ≤ candidate_entropy s.dataset s.outliers j := by
  unfold candidate_entropy
  rw [← candidate_rows_length data d s hc j hj hjO]
  exact entropy_nonneg_of_bounds _ _
    (fun m hm => (entries_of_tracks (candidate_tracks data d hrows s hc j hj hjO) m hm).2)

/-- No round commits from a consistent state whose `bestEntropy` is not positive. -/
theorem no_improvement_of_nonpos (data : Data) (d : Nat) (hrows : ∀ row ∈ data, row.length = d)
    (s : Search) (hc : Consistent data d s) (hb : s.bestEntropy ≤ 0) : no_improvement s := by
  intro j hj hjO hlt
  rw [hc.1] at hj
  have := candidate_entropy_nonneg data d hrows s hc j hj hjO
  linarith

/-- The outcome of a call whose first round finds no improvement. -/
theorem greedy_outliers_fails_at (dataset : Dataset) (k r : Nat) (s : Search)
    (hk : k ≤ dataset.data.length) (hr : r < k) (hs : after_rounds dataset r = some s)
    (hno : no_improvement s) :
    greedy_outliers dataset k = some
      { result := Except.error Error.no_improvement
        dataset := s.dataset
        evaluated := (scan s).evaluated } := by
  obtain ⟨u, hu⟩ := (round_error_iff s).mpr hno
  rcases greedy_outliers_spec dataset k hk with ⟨t, ht, _⟩ | ⟨r2, t, t1, _, ht, hrd, hres⟩
  · rw [after_rounds_none_of_error dataset r k s u _ hs hu hr] at ht
    cases ht
  · have hrr := failing_round_unique dataset r r2 s u t t1 _ _ hs hu ht hrd
    subst hrr
    rw [hs] at ht
    cases ht
    rw [hres, (round_error s t1 _ hrd).2.2]

/-! ## The log of `entropy` calls -/

theorem mem_scan_evaluated (s : Search) (e : Occurences × Nat) (he : e ∈ (scan s).evaluated) :
    e ∈ s.evaluated ∨ ∃ j, j < s.dataset.data.length ∧ j ∉ s.outliers ∧
      e = (mark_outlier s.dataset j, s.dataset.data.length - s.outliers.card - 1) := by
  rw [scan_evaluated, List.mem_append] at he
  rcases he with he | he
  · exact Or.inl he
  · right
    obtain ⟨j, hj, rfl⟩ := List.mem_map.mp he
    have hj2 := List.mem_filter.mp hj
    exact ⟨j, List.mem_range.mp hj2.1, by simpa using hj2.2, rfl⟩

theorem round_evaluated (s t : Search) (x : Except Error Unit) (h : round s = (x, t)) :
    t.evaluated = (scan s).evaluated := by
  cases x with
  | error e => rw [(round_error s t e h).2.2]
  | ok u =>
    obtain ⟨i, _, rfl⟩ := round_ok s t h
    rfl

/-- A property of the logged calls that holds for the baseline call and for
every candidate call made from a state with the invariant `Q` that still has
fewer than `k` outliers holds for the whole log of a call of `greedy_outliers`. -/
theorem evaluated_all (P : Occurences × Nat → Prop) (Q : Search → Prop)
    (dataset : Dataset) (k : Nat)
    (hQ : ∀ s t, Q s → round s = (Except.ok (), t) → Q t)
    (hP : ∀ s j, Q s → s.outliers.card < k → j < s.dataset.data.length → j ∉ s.outliers →
      P (mark_outlier s.dataset j, s.dataset.data.length - s.outliers.card - 1))
    (o : Outcome) (hrun : greedy_outliers dataset k = some o)
    (h0 : Q (initial_search dataset)) (hP0 : P (dataset.occurences, dataset.data.length)) :
    ∀ e ∈ o.evaluated, P e := by
  have hstep : ∀ s, Q s → s.outliers.card < k → (∀ e ∈ s.evaluated, P e) →
      ∀ e ∈ (scan s).evaluated, P e := by
    intro s hq hcard hall e he
    rcases mem_scan_evaluated s e he with h | ⟨j, hj, hjO, rfl⟩
    · exact hall e h
    · exact hP s j hq hcard hj hjO
  have hrounds : ∀ r s t, run_rounds r s = some t → s.outliers.card + r ≤ k → Q s →
      (∀ e ∈ s.evaluated, P e) → Q t ∧ ∀ e ∈ t.evaluated, P e := by
    intro r
    induction r with
    | zero =>
      intro s t h _ hq hall
      rw [run_rounds_zero] at h
      cases h
      exact ⟨hq, hall⟩
    | succ r ih =>
      intro s t h hcard hq hall
      rcases round_cases s with ⟨u, hu⟩ | ⟨u, hu⟩
      · rw [run_rounds_succ_ok r s u hu] at h
        obtain ⟨i, hmin, ho, _⟩ := round_ok_facts s u hu
        have hcu : u.outliers.card = s.outliers.card + 1 := by
          rw [ho, Finset.card_insert_of_not_mem hmin.2.1]
        refine ih u t h (by omega) (hQ s u hq hu) ?_
        rw [round_evaluated s u _ hu]
        exact hstep s hq (by omega) hall
      · rw [run_rounds_succ_error r s u _ hu] at h
        cases h
  have hinit : ∀ e ∈ (initial_search dataset).evaluated, P e := by
    intro e he
    simp only [initial_search, List.mem_singleton] at he
    rw [he]
    exact hP0
  by_cases hk : k ≤ dataset.data.length
  · rcases greedy_outliers_spec dataset k hk with ⟨t, ht, hres⟩ | ⟨r, t, t1, hr, ht, hrd, hres⟩
    · rw [hres] at hrun
      cases hrun
      exact (hrounds k _ t ht (by rw [initial_search_card]; omega) h0 hinit).2
    · rw [hres] at hrun
      cases hrun
      obtain ⟨hq, hall⟩ := hrounds r _ t ht (by rw [initial_search_card]; omega) h0 hinit
      obtain ⟨_, f2, _, _, _, _⟩ := run_rounds_facts r _ t ht
      rw [initial_search_card, Nat.zero_add] at f2
      simp only
      rw [round_evaluated t t1 _ hrd]
      exact hstep t hq (by omega) hall
  · rw [greedy_outliers_of_gt dataset k (by omega)] at hrun
    cases hrun
    intro e he
    cases he

/-! ## Scenario C and the last active row -/

theorem read_data_replicate (row : List String) (n : Nat) (hn : 1 ≤ n) :
    read_data (List.replicate n row) = ReadOutcome.returned (identical_rows_dataset row n) := by
  obtain ⟨m, rfl⟩ : ∃ m, n = m + 1 := ⟨n - 1, by omega⟩
  have hall : (List.replicate (m + 1) row).all (fun x => decide (x.length = row.length)) = true := by
    rw [List.all_eq_true]
    intro x hx
    rw [(List.mem_replicate.mp hx).2]
    simp
  have hcons : List.replicate (m + 1) row = row :: List.replicate m row := rfl
  unfold read_data identical_rows_dataset
  rw [hcons] at hall ⊢
  simp only [hall, if_true]

theorem identical_rows_uniform (row : List String) (n : Nat) :
    ∀ x ∈ List.replicate n row, x.length = row.length := by
  intro x hx
  rw [(List.mem_replicate.mp hx).2]

theorem occurrences_of_replicate (row : List String) (n i : Nat) (v : String) :
    occurrences_of (List.replicate n row) i v = if row.getD i "" = v then n else 0 := by
  unfold occurrences_of
  rw [List.countP_replicate]
  by_cases h : row.getD i "" = v <;> simp [h]

theorem identical_rows_baseline (row : List String) (n : Nat) :
    entropy (identical_rows_dataset row n).occurences
      (identical_rows_dataset row n).data.length = 0 := by
  have ht : Tracks (build row.length (List.replicate n row)) row.length (List.replicate n row) :=
    tracks_build _ _
  have hlen : (identical_rows_dataset row n).data.length = (List.replicate n row).length := rfl
  show entropy (build row.length (List.replicate n row)) _ = 0
  rw [hlen]
  rw [entropy_eq_zero_iff_counts _ _ (fun m hm => (entries_of_tracks ht m hm).2)]
  intro m hm e he
  obtain ⟨i, hi, hget⟩ := List.getElem_of_mem hm
  have hid : i < row.length := by rw [← ht.1]; exact hi
  obtain ⟨m2, hm2, hnd, hfind⟩ := ht.2 i hid
  have hmm : m2 = m := by
    rw [List.getElem?_eq_getElem hi, hget] at hm2
    cases hm2
    rfl
  subst hmm
  obtain ⟨v, c⟩ := e
  have hf := (OccMap.mem_iff_find m2 hnd v c).mp he
  rw [hfind v, occurrences_of_replicate] at hf
  unfold entry_of_count at hf
  simp only [List.length_replicate]
  split_ifs at hf with h1 h2 h3
  · cases hf
    rfl
  · exact absurd rfl h3

/-- C11: Scenario C.  For `n ≥ 1` identical rows, `read` returns the dataset
with the table built from them, the baseline entropy of that dataset is `0`,
no candidate removal has an entropy strictly below it, and
`greedy_outliers(dataset, 1)` fails with the "no improvement" error. -/
theorem scenario_C_no_improvement (row : List String) (n : Nat) (hn : 1 ≤ n) :
    read_data (List.replicate n row) = ReadOutcome.returned (identical_rows_dataset row n) ∧
    entropy (identical_rows_dataset row n).occurences
      (identical_rows_dataset row n).data.length = 0 ∧
    no_improvement (initial_search (identical_rows_dataset row n)) ∧
    ∃ o, greedy_outliers (identical_rows_dataset row n) 1 = some o ∧
      o.result = Except.error Error.no_improvement := by
  have hno : no_improvement (initial_search (identical_rows_dataset row n)) :=
    no_improvement_of_nonpos (List.replicate n row) row.length (identical_rows_uniform row n) _
      (consistent_initial _ _) (le_of_eq (identical_rows_baseline row n))
  refine ⟨read_data_replicate row n hn, identical_rows_baseline row n, hno, ?_⟩
  have hlen : 1 ≤ (identical_rows_dataset row n).data.length := by
    show 1 ≤ (List.replicate n row).length
    rw [List.length_replicate]
    exact hn
  exact ⟨_, greedy_outliers_fails_at _ 1 0 _ hlen (by omega) rfl hno, rfl⟩

/-- Two identical rows `["x", "y"]`: the call with `k = 1` fails. -/
theorem scenario_C_no_improvement_witness :
    1 ≤ 2 ∧ ∃ o, greedy_outliers (identical_rows_dataset ["x", "y"] 2) 1 = some o ∧
      o.result = Except.error Error.no_improvement :=
  ⟨by decide, (scenario_C_no_improvement ["x", "y"] 2 (by decide)).2.2.2⟩

/-! ## The calls made to `entropy` -/

/-- C17: for rows of `d` fields each, a value is a key of a dimension exactly
when its count is strictly positive, and no entry has count zero: in the table
that `read` builds, in `dataset.occurences` after every committed round of
`greedy_outliers`, and in every candidate table that `mark_outlier` returns
there for a row that is not yet marked. -/
theorem positive_count_invariant (data : Data) (d : Nat)
    (hrows : ∀ row ∈ data, row.length = d) :
    positive_counts (build d data) ∧
    ∀ r s, after_rounds { data := data, occurences := build d data } r = some s →
      positive_counts s.dataset.occurences ∧
      ∀ j, j < data.length → j ∉ s.outliers → positive_counts (mark_outlier s.dataset j) := by
  refine ⟨positive_counts_of_tracks (tracks_build d data), ?_⟩
  intro r s hs
  obtain ⟨hc, _, _⟩ := after_rounds_facts data d hrows r s hs
  refine ⟨positive_counts_of_tracks hc.2.2, ?_⟩
  intro j hj hjO
  exact positive_counts_of_tracks (candidate_tracks data d hrows s hc j hj hjO)

/-- The rows of Scenario A have three fields each; the table built from them
keeps no zero count. -/
theorem positive_count_invariant_witness :
    (∀ row ∈ scenario_data, row.length = 3) ∧ positive_counts (build 3 scenario_data) :=
  ⟨by decide, (positive_count_invariant scenario_data 3 (by decide)).1⟩

/-- C18: for rows of `d` fields each, the counts of every dimension sum to the
number of active rows: to `n` in the table that `read` builds, to
`n - |outliers|` in `dataset.occurences` after every committed round, and to
`n - |outliers| - 1` in every candidate table of a round; every call of
`entropy` that `greedy_outliers` makes passes a table whose dimensions all sum
to the `numDataPoints` passed with it. -/
theorem count_sum_invariant (data : Data) (d : Nat)
    (hrows : ∀ row ∈ data, row.length = d) :
    ((build d data).length = d ∧ sums_to (build d data) data.length) ∧
    (∀ r s, after_rounds { data := data, occurences := build d data } r = some s →
      (s.dataset.occurences.length = d ∧
        sums_to s.dataset.occurences (data.length - s.outliers.card)) ∧
      ∀ j, j < data.length → j ∉ s.outliers →
        (mark_outlier s.dataset j).length = d ∧
          sums_to (mark_outlier s.dataset j) (data.length - s.outliers.card - 1)) ∧
    (∀ k o, greedy_outliers { data := data, occurences := build d data } k = some o →
      ∀ e ∈ o.evaluated, sums_to e.1 e.2) := by
  have hbuild : sums_to (build d data) data.length := count_sum_of_tracks (tracks_build d data)
  have hstate : ∀ s, Consistent data d s →
      sums_to s.dataset.occurences (data.length - s.outliers.card) := by
    intro s hc
    have := count_sum_of_tracks hc.2.2
    rw [remaining_rows_length data s.outliers hc.2.1] at this
    exact this
  have hcand : ∀ s, Consistent data d s → ∀ j, j < data.length → j ∉ s.outliers →
      sums_to (mark_outlier s.dataset j) (s.dataset.data.length - s.outliers.card - 1) := by
    intro s hc j hj hjO
    have := count_sum_of_tracks (candidate_tracks data d hrows s hc j hj hjO)
    rw [candidate_rows_length data d s hc j hj hjO] at this
    exact this
  refine ⟨⟨(tracks_build d data).1, hbuild⟩, ?_, ?_⟩
  · intro r s hs
    obtain ⟨hc, _, _⟩ := after_rounds_facts data d hrows r s hs
    refine ⟨⟨hc.2.2.1, hstate s hc⟩, ?_⟩
    intro j hj hjO
    have := hcand s hc j hj hjO
    rw [hc.1] at this
    exact ⟨(candidate_tracks data d hrows s hc j hj hjO).1, this⟩
  · intro k o hrun
    refine evaluated_all (fun e => sums_to e.1 e.2) (Consistent data d) _ k ?_ ?_ o hrun
      (consistent_initial data d) hbuild
    · intro s t hq hround
      exact consistent_round data d hrows s t hq hround
    · intro s j hq _ hj hjO
      rw [hq.1] at hj
      exact hcand s hq j hj hjO

/-- The rows of Scenario A: every dimension of the table built from them sums to `3`. -/
theorem count_sum_invariant_witness :
    (∀ row ∈ scenario_data, row.length = 3) ∧
      sums_to (build 3 scenario_data) scenario_data.length :=
  ⟨by decide, (count_sum_invariant scenario_data 3 (by decide)).1.2⟩

/-! ## Zero entropy -/

/-- In a state reached from a dataset that `read` built, the table satisfies
the bounds `1 ≤ count ≤ n - |outliers|` and `bestEntropy` is its entropy. -/
theorem reached_state_entropy (data : Data) (d : Nat) (hrows : ∀ row ∈ data, row.length = d)
    (r : Nat) (s : Search)
    (hs : after_rounds { data := data, occurences := build d data } r = some s) :
    s.bestEntropy = entropy s.dataset.occurences (data.length - s.outliers.card) ∧
    (∀ m ∈ s.dataset.occurences, (OccMap.keys m).Nodup ∧
      ∀ e ∈ m, 1 ≤ e.2 ∧ e.2 ≤ data.length - s.outliers.card) ∧
    sums_to s.dataset.occurences (data.length - s.outliers.card) := by
  obtain ⟨hc, he, _⟩ := after_rounds_facts data d hrows r s hs
  unfold entropy_current at he
  rw [hc.1] at he
  have hlen := remaining_rows_length data s.outliers hc.2.1
  refine ⟨he, ?_, ?_⟩
  · intro m hm
    have := entries_of_tracks hc.2.2 m hm
    rw [hlen] at this
    exact this
  · have := count_sum_of_tracks hc.2.2
    rw [hlen] at this
    exact this

/-- A round that commits from a reached state starts from a positive entropy. -/
theorem commit_needs_positive_entropy (data : Data) (d : Nat)
    (hrows : ∀ row ∈ data, row.length = d) (r : Nat) (s t : Search)
    (hs : after_rounds { data := data, occurences := build d data } r = some s)
    (hround : round s = (Except.ok (), t)) :
    0 < s.bestEntropy ∧ s.outliers.card < data.length := by
  obtain ⟨hc, _, _⟩ := after_rounds_facts data d hrows r s hs
  obtain ⟨i, hmin, _, _, _, hbest, hlt⟩ := round_ok_facts s t hround
  have hi : i < data.length := by rw [← hc.1]; exact hmin.1
  have hnonneg := candidate_entropy_nonneg data d hrows s hc i hi hmin.2.1
  refine ⟨by rw [hbest] at hlt; linarith, ?_⟩
  have hsub : insert i s.outliers ⊆ Finset.range data.length := by
    intro x hx
    rw [Finset.mem_range]
    rcases Finset.mem_insert.mp hx with rfl | hx
    · exact hi
    · exact hc.2.1 x hx
  have := Finset.card_le_card hsub
  rw [Finset.card_insert_of_not_mem hmin.2.1, Finset.card_range] at this
  omega

/-- C19: for `n ≥ 1` rows of `d` fields each and the table that `read`
builds, `greedy_outliers(dataset, n)` does not return a `Result`: it fails with
the "no improvement" error.  Hence every successful run has `k < n` or
`k = 0`. -/
theorem all_rows_never_succeed (data : Data) (d : Nat)
    (hrows : ∀ row ∈ data, row.length = d) (hn : 1 ≤ data.length) :
    (∃ o, greedy_outliers { data := data, occurences := build d data } data.length = some o ∧
      o.result = Except.error Error.no_improvement) ∧
    (∀ k o R, greedy_outliers { data := data, occurences := build d data } k = some o →
      o.result = Except.ok R → k < data.length ∨ k = 0) := by
  have hfail : ∀ t, after_rounds { data := data, occurences := build d data } data.length =
      some t → False := by
    intro t ht
    obtain ⟨n, hn2⟩ : ∃ n, data.length = n + 1 := ⟨data.length - 1, by omega⟩
    rw [hn2] at ht
    obtain ⟨s, hs⟩ := run_rounds_some_mono n (n + 1) (by omega) _ t ht
    have hs2 : after_rounds { data := data, occurences := build d data } n = some s := hs
    have hround := (after_rounds_succ_some _ n s t hs2).mp ht
    obtain ⟨_, _, hcard⟩ := after_rounds_facts data d hrows n s hs2
    obtain ⟨hbest, hbounds, _⟩ := reached_state_entropy data d hrows n s hs2
    have hpos := (commit_needs_positive_entropy data d hrows n s t hs2 hround).1
    have hone : data.length - s.outliers.card = 1 := by omega
    rw [hone] at hbest hbounds
    have hzero : entropy s.dataset.occurences 1 = 0 := by
      rw [entropy_eq_zero_iff_counts _ _ (fun m hm => (hbounds m hm).2)]
      intro m hm e he
      have := (hbounds m hm).2 e he
      omega
    rw [hbest, hzero] at hpos
    exact lt_irrefl 0 hpos
  constructor
  · rcases greedy_outliers_spec { data := data, occurences := build d data } data.length
      (le_refl _) with ⟨t, ht, _⟩ | ⟨r, t, t1, _, _, _, hres⟩
    · exact absurd ht (fun h => hfail t h)
    · exact ⟨_, hres, rfl⟩
  · intro k o R hrun hok
    obtain ⟨hk, t, ht, _⟩ := greedy_outliers_ok _ k o R hrun hok
    left
    have hk2 : k ≤ data.length := hk
    rcases Nat.lt_or_ge k data.length with h | h
    · exact h
    · have hkn : k = data.length := by omega
      rw [hkn] at ht
      exact absurd ht (fun h => hfail t h)

/-- The three rows of Scenario A with `k = 3`: the call fails. -/
theorem all_rows_never_succeed_witness :
    ((∀ row ∈ scenario_data, row.length = 3) ∧ 1 ≤ scenario_data.length) ∧
      ∃ o, greedy_outliers { data := scenario_data, occurences := build 3 scenario_data }
          scenario_data.length = some o ∧
        o.result = Except.error Error.no_improvement :=
  ⟨⟨by decide, by decide⟩, (all_rows_never_succeed scenario_data 3 (by decide) (by decide)).1⟩

/-- C20: for a table whose counts are all positive and sum to `n_active ≥ 1`
in every dimension, `entropy(table, n_active) = 0` exactly when every
dimension holds a single value (with count `n_active`).  Hence, from a state
reached on a dataset that `read` built, `greedy_outliers` commits a further
outlier only if some dimension of the table of the active rows has at least
two distinct values. -/
theorem entropy_zero_iff_single_values (occurences : Occurences) (numActive : Nat)
    (hn : 1 ≤ numActive) (hpos : ∀ m ∈ occurences, ∀ e ∈ m, 0 < e.2)
    (hsum : sums_to occurences numActive) :
    (entropy occurences numActive = 0 ↔ ∀ m ∈ occurences, ∃ v, m = [(v, numActive)]) ∧
    (∀ (data : Data) (d : Nat), (∀ row ∈ data, row.length = d) →
      ∀ r s t, after_rounds { data := data, occurences := build d data } r = some s →
        round s = (Except.ok (), t) →
        ∃ m ∈ s.dataset.occurences, (OccMap.keys m).Nodup ∧ 2 ≤ (OccMap.keys m).length) := by
  constructor
  · have hbounds : ∀ m ∈ occurences, ∀ e ∈ m, 1 ≤ e.2 ∧ e.2 ≤ numActive := by
      intro m hm e he
      refine ⟨hpos m hm e he, ?_⟩
      rw [← hsum m hm]
      exact count_le_count_sum m e he
    rw [entropy_eq_zero_iff_counts _ _ hbounds]
    constructor
    · intro hall m hm
      exact (single_value_iff m numActive hn (hpos m hm) (hsum m hm)).mp (hall m hm)
    · intro hall m hm
      exact (single_value_iff m numActive hn (hpos m hm) (hsum m hm)).mpr (hall m hm)
  · intro data d hrows r s t hs hround
    obtain ⟨hbest, hbounds, hsums⟩ := reached_state_entropy data d hrows r s hs
    obtain ⟨hgt, hcard⟩ := commit_needs_positive_entropy data d hrows r s t hs hround
    by_contra hnone
    have hsingle : ∀ m ∈ s.dataset.occurences,
        ∀ e ∈ m, e.2 = data.length - s.outliers.card := by
      intro m hm
      have hlen : ¬ 2 ≤ (OccMap.keys m).length :=
        fun h2 => hnone ⟨m, hm, (hbounds m hm).1, h2⟩
      have hone : ∃ v, m = [(v, data.length - s.outliers.card)] := by
        cases m with
        | nil =>
          have := hsums [] hm
          unfold count_sum at this
          simp at this
          omega
        | cons a m =>
          cases m with
          | nil =>
            have := hsums [a] hm
            unfold count_sum at this
            simp at this
            exact ⟨a.1, by rw [← this]⟩
          | cons b m =>
            simp [OccMap.keys] at hlen
      obtain ⟨v, rfl⟩ := hone
      intro e he
      rw [List.mem_singleton] at he
      rw [he]
    have hzero := (entropy_eq_zero_iff_counts _ _ (fun m hm => (hbounds m hm).2)).mpr hsingle
    rw [hbest, hzero] at hgt
    exact lt_irrefl 0 hgt

/-- The table of Scenario A after row `0` is removed, with two active rows. -/
theorem entropy_zero_iff_single_values_witness :
    (1 ≤ 2 ∧
      (∀ m ∈ mark_outlier scenario_dataset 0, ∀ e ∈ m, 0 < e.2) ∧
      sums_to (mark_outlier scenario_dataset 0) 2) ∧
    (entropy (mark_outlier scenario_dataset 0) 2 = 0 ↔
      ∀ m ∈ mark_outlier scenario_dataset 0, ∃ v, m = [(v, 2)]) :=
  ⟨⟨by decide, by decide, by unfold sums_to; decide⟩,
    (entropy_zero_iff_single_values (mark_outlier scenario_dataset 0) 2 (by decide)
      (by decide) (by unfold sums_to; decide)).1⟩

/-! ## The writer -/

theorem join_foldl (l : List String) (s : String) :
    l.foldl (fun r x => r ++ x) s = s ++ String.join l := by
  unfold String.join
  induction l generalizing s with
  | nil => simp [String.append_empty]
  | cons a l ih =>
    simp only [List.foldl_cons]
    rw [ih (s ++ a), ih ("" ++ a), String.empty_append, String.append_assoc]

theorem join_cons (a : String) (l : List String) : String.join (a :: l) = a ++ String.join l := by
  have := join_foldl (a :: l) ""
  rw [String.empty_append] at this
  rw [← this]
  simp only [List.foldl_cons]
  exact join_foldl l ("" ++ a) |>.trans (by rw [String.empty_append])

theorem write_data_loop_eq (outliers : Finset Nat) :
    ∀ (data : Data) (index : Nat) (out : String),
      write_data_loop outliers index data out =
        out ++ String.join
          ((((data.enumFrom index).filter (fun p => decide (p.1 ∉ outliers))).map
            Prod.snd).map write) := by
  intro data
  induction data with
  | nil =>
    intro index out
    simp [write_data_loop, String.join, String.append_empty]
  | cons x data ih =>
    intro index out
    simp only [write_data_loop, List.enumFrom_cons]
    rw [List.filter_cons]
    by_cases h : index ∈ outliers
    · simp only [h, if_true, not_true_eq_false, decide_False]
      exact ih (index + 1) out
    · simp only [h, if_false, not_false_eq_true, decide_True, if_true, List.map_cons]
      rw [ih (index + 1) (out ++ write x), join_cons, String.append_assoc]

/-! ## Splitting a line and joining it again -/

theorem write_values_foldl (l : List String) (b : Bool) (s : String) :
    (l.foldl
      (fun (st : Bool × String) value => (false, st.2 ++ (if st.1 then "" else ",") ++ value))
      (b, s)).2 =
      match l with
      | [] => s
      | a :: rest =>
        rest.foldl (fun r x => r ++ "," ++ x) (s ++ (if b then "" else ",") ++ a) := by
  cases l with
  | nil => rfl
  | cons a rest =>
    simp only [List.foldl_cons]
    generalize s ++ (if b then "" else ",") ++ a = s2
    induction rest generalizing s2 with
    | nil => rfl
    | cons c rest ih =>
      simp only [List.foldl_cons]
      exact ih _

theorem comma_foldl (l : List String) (p s : String) :
    l.foldl (fun r x => r ++ "," ++ x) (p ++ s) = p ++ l.foldl (fun r x => r ++ "," ++ x) s := by
  induction l generalizing s with
  | nil => rfl
  | cons a l ih =>
    simp only [List.foldl_cons]
    rw [String.append_assoc p s ",", String.append_assoc p (s ++ ",") a]
    exact ih _

theorem write_values_nil : write_values [] = "" := rfl

theorem write_values_single (a : String) : write_values [a] = a := by
  unfold write_values
  rw [write_values_foldl]
  simp [String.append_empty, String.empty_append]

theorem write_values_cons_cons (a b : String) (l : List String) :
    write_values (a :: b :: l) = a ++ "," ++ write_values (b :: l) := by
  unfold write_values
  rw [write_values_foldl, write_values_foldl]
  simp only [if_true, String.append_empty, String.empty_append, List.foldl_cons]
  rw [String.append_assoc a "," b, comma_foldl, comma_foldl, String.append_assoc]

theorem read_data_cons (first : List String) (rest : Data) :
    read_data (first :: rest) =
      if (first :: rest).all (fun x => decide (x.length = first.length)) then
        ReadOutcome.returned
          { data := first :: rest, occurences := build first.length (first :: rest) }
      else ReadOutcome.threw ReadError.uneven_dimensions := rfl

/-- C14: for a non-empty sequence of parsed rows, `read` throws the "uneven
number of dimensions" error exactly when some row has a field count other than
that of the first row; otherwise it returns the rows with the table built from
them.  Hence every dataset that `read` returns, from any file, has rows of one
length `d` and a table with `d` dimensions. -/
theorem read_uneven_dimensions (data : Data) (hne : data ≠ []) :
    (read_data data = ReadOutcome.threw ReadError.uneven_dimensions ↔
      ∃ row ∈ data, row.length ≠ (data.headD []).length) ∧
    ((∀ row ∈ data, row.length = (data.headD []).length) →
      read_data data = ReadOutcome.returned
        { data := data, occurences := build (data.headD []).length data }) ∧
    (∀ ds, read_data data = ReadOutcome.returned ds →
      ds.data = data ∧ (∀ row ∈ ds.data, row.length = (data.headD []).length) ∧
      ds.occurences = build (data.headD []).length data ∧
      ds.occurences.length = (data.headD []).length) ∧
    (∀ file ds, read file = ReadOutcome.returned ds →
      ∃ d, (∀ row ∈ ds.data, row.length = d) ∧ ds.occurences.length = d) := by
  have hcases : ∀ (first : List String) (rest : Data),
      (read_data (first :: rest) = ReadOutcome.threw ReadError.uneven_dimensions ↔
        ∃ row ∈ first :: rest, row.length ≠ first.length) ∧
      ((∀ row ∈ first :: rest, row.length = first.length) →
        read_data (first :: rest) = ReadOutcome.returned
          { data := first :: rest, occurences := build first.length (first :: rest) }) ∧
      (∀ ds, read_data (first :: rest) = ReadOutcome.returned ds →
        ds.data = first :: rest ∧ (∀ row ∈ ds.data, row.length = first.length) ∧
        ds.occurences = build first.length (first :: rest) ∧
        ds.occurences.length = first.length) := by
    intro first rest
    rw [read_data_cons]
    by_cases hall : (first :: rest).all (fun x => decide (x.length = first.length)) = true
    · have hrows : ∀ row ∈ first :: rest, row.length = first.length := by
        intro row hrow
        have := List.all_eq_true.mp hall row hrow
        simpa using this
      rw [if_pos hall]
      refine ⟨?_, fun _ => rfl, ?_⟩
      · constructor
        · intro h
          cases h
        · rintro ⟨row, hrow, hlen⟩
          exact absurd (hrows row hrow) hlen
      · intro ds hds
        cases hds
        exact ⟨rfl, hrows, rfl, (tracks_build _ _).1⟩
    · rw [if_neg hall]
      refine ⟨?_, ?_, ?_⟩
      · constructor
        · intro _
          by_contra hnone
          apply hall
          rw [List.all_eq_true]
          intro row hrow
          have : row.length = first.length := by
            by_contra hlen
            exact hnone ⟨row, hrow, hlen⟩
          simpa using this
        · intro _
          rfl
      · intro hrows
        exfalso
        apply hall
        rw [List.all_eq_true]
        intro row hrow
        simpa using hrows row hrow
      · intro ds hds
        cases hds
  refine ⟨?_, ?_, ?_, ?_⟩
  · cases data with
    | nil => exact absurd rfl hne
    | cons first rest => exact (hcases first rest).1
  · cases data with
    | nil => exact absurd rfl hne
    | cons first rest => exact (hcases first rest).2.1
  · cases data with
    | nil => exact absurd rfl hne
    | cons first rest => exact (hcases first rest).2.2
  · intro file ds hread
    cases file with
    | none => cases hread
    | some content =>
      unfold read at hread
      simp only at hread
      cases hp : parse_data content with
      | nil =>
        rw [hp] at hread
        cases hread
      | cons first rest =>
        rw [hp] at hread
        obtain ⟨h1, h2, _, h4⟩ := (hcases first rest).2.2 ds hread
        exact ⟨first.length, h2, h4⟩

/-- The rows of Scenario A: three fields each, so `read` returns the dataset. -/
theorem read_uneven_dimensions_witness :
    scenario_data ≠ [] ∧
      read_data scenario_data = ReadOutcome.returned
        { data := scenario_data
          occurences := build (scenario_data.headD []).length scenario_data } :=
  ⟨by decide, (read_uneven_dimensions scenario_data (by decide)).2.1 (by decide)⟩

/-- C15: on a readable file without content `read` parses no rows and then
calls `data.front()` on the empty vector: the behaviour is undefined, and no
exception of `read` is thrown. -/
theorem read_empty_file :
    parse_data "" = [] ∧ read (some "") = ReadOutcome.undefined ∧
      (∀ e, read (some "") ≠ ReadOutcome.threw e) ∧
      ∀ content, parse_data content = [] → read (some content) = ReadOutcome.undefined := by
  refine ⟨rfl, rfl, ?_, ?_⟩
  · intro e h
    cases h
  · intro content h
    unfold read
    simp only
    rw [h]
    rfl

/-! ## The scan and the round, for any arithmetic of `entropy` -/

theorem scan_upto_of {D : Type} [LinearOrder D] (ent : Occurences → Nat → D) (ds : Dataset)
    (O : Finset Nat) (b0 : D) (log0 : List (Occurences × Nat)) (m : Nat) :
    (((List.range m).foldl (scan_step_of ent ds O)
          { bestEntropy := b0, bestIndex := none, evaluated := log0 }).bestIndex = none →
        ((List.range m).foldl (scan_step_of ent ds O)
          { bestEntropy := b0, bestIndex := none, evaluated := log0 }).bestEntropy = b0 ∧
        ∀ j, j < m → j ∉ O → ¬ candidate_entropy_of ent ds O j < b0) ∧
    (∀ i, ((List.range m).foldl (scan_step_of ent ds O)
          { bestEntropy := b0, bestIndex := none, evaluated := log0 }).bestIndex = some i →
        i < m ∧ i ∉ O ∧
        ((List.range m).foldl (scan_step_of ent ds O)
          { bestEntropy := b0, bestIndex := none, evaluated := log0 }).bestEntropy =
            candidate_entropy_of ent ds O i ∧
        candidate_entropy_of ent ds O i < b0 ∧
        (∀ j, j < m → j ∉ O →
          candidate_entropy_of ent ds O i ≤ candidate_entropy_of ent ds O j) ∧
        (∀ j, j < i → j ∉ O →
          candidate_entropy_of ent ds O i < candidate_entropy_of ent ds O j)) := by
  induction m with
  | zero => simp
  | succ m ih =>
    rw [List.range_succ, List.foldl_append]
    simp only [List.foldl_cons, List.foldl_nil]
    generalize (List.range m).foldl (scan_step_of ent ds O)
      { bestEntropy := b0, bestIndex := none, evaluated := log0 } = sc at ih ⊢
    obtain ⟨ihn, ihs⟩ := ih
    by_cases hm : m ∈ O
    · have hstep : scan_step_of ent ds O sc m = sc := by simp [scan_step_of, hm]
      rw [hstep]
      constructor
      · intro hnone
        refine ⟨(ihn hnone).1, ?_⟩
        intro j hj hjO
        have hjm : j ≠ m := fun h => hjO (h ▸ hm)
        exact (ihn hnone).2 j (by omega) hjO
      · intro i hi
        obtain ⟨h1, h2, h3, h4, h5, h6⟩ := ihs i hi
        refine ⟨by omega, h2, h3, h4, ?_, h6⟩
        intro j hj hjO
        have hjm : j ≠ m := fun h => hjO (h ▸ hm)
        exact h5 j (by omega) hjO
    · by_cases hlt : candidate_entropy_of ent ds O m < sc.bestEntropy
      · have hstep : scan_step_of ent ds O sc m =
            { bestEntropy := candidate_entropy_of ent ds O m, bestIndex := some m,
              evaluated := sc.evaluated ++
                [(mark_outlier ds m, ds.data.length - O.card - 1)] } := by
          unfold candidate_entropy_of at hlt
          simp [scan_step_of, hm, hlt, candidate_entropy_of]
        rw [hstep]
        have hbound : sc.bestEntropy ≤ b0 ∧
            ∀ j, j < m → j ∉ O → sc.bestEntropy ≤ candidate_entropy_of ent ds O j := by
          cases hb : sc.bestIndex with
          | none =>
            obtain ⟨e1, e2⟩ := ihn hb
            refine ⟨le_of_eq e1, ?_⟩
            intro j hj hjO
            rw [e1]
            exact not_lt.mp (e2 j hj hjO)
          | some i =>
            obtain ⟨_, _, h3, h4, h5, _⟩ := ihs i hb
            refine ⟨by rw [h3]; exact le_of_lt h4, ?_⟩
            intro j hj hjO
            rw [h3]
            exact h5 j hj hjO
        constructor
        · intro hnone
          simp at hnone
        · intro i hi
          simp only [Option.some.injEq] at hi
          subst hi
          refine ⟨by omega, hm, rfl, lt_of_lt_of_le hlt hbound.1, ?_, ?_⟩
          · intro j hj hjO
            by_cases hjm : j = m
            · rw [hjm]
            · exact le_of_lt (lt_of_lt_of_le hlt (hbound.2 j (by omega) hjO))
          · intro j hj hjO
            exact lt_of_lt_of_le hlt (hbound.2 j hj hjO)
      · have hstep : scan_step_of ent ds O sc m =
            { sc with evaluated := sc.evaluated ++
                [(mark_outlier ds m, ds.data.length - O.card - 1)] } := by
          unfold candidate_entropy_of at hlt
          simp [scan_step_of, hm, hlt]
        rw [hstep]
        simp only
        constructor
        · intro hnone
          obtain ⟨e1, e2⟩ := ihn hnone
          refine ⟨e1, ?_⟩
          intro j hj hjO
          by_cases hjm : j = m
          · rw [hjm, ← e1]
            exact hlt
          · exact e2 j (by omega) hjO
        · intro i hi
          obtain ⟨h1, h2, h3, h4, h5, h6⟩ := ihs i hi
          refine ⟨by omega, h2, h3, h4, ?_, h6⟩
          intro j hj hjO
          by_cases hjm : j = m
          · rw [hjm, ← h3]
            exact not_lt.mp hlt
          · exact h5 j (by omega) hjO

theorem scan_some_of {D : Type} [LinearOrder D] (ent : Occurences → Nat → D) (s : SearchOf D)
    (i : Nat) (h : (scan_of ent s).bestIndex = some i) :
    least_minimal_of ent s.dataset s.outliers i ∧
      (scan_of ent s).bestEntropy = candidate_entropy_of ent s.dataset s.outliers i ∧
      candidate_entropy_of ent s.dataset s.outliers i < s.bestEntropy := by
  obtain ⟨h1, h2, h3, h4, h5, h6⟩ :=
    (scan_upto_of ent s.dataset s.outliers s.bestEntropy s.evaluated s.dataset.data.length).2 i h
  exact ⟨⟨h1, h2, h5, h6⟩, h3, h4⟩

theorem least_minimal_unique_of {D : Type} [LinearOrder D] {ent : Occurences → Nat → D}
    {ds : Dataset} {O : Finset Nat} {i j : Nat}
    (hi : least_minimal_of ent ds O i) (hj : least_minimal_of ent ds O j) : i = j := by
  obtain ⟨i1, i2, i3, i4⟩ := hi
  obtain ⟨j1, j2, j3, j4⟩ := hj
  rcases Nat.lt_trichotomy i j with h | h | h
  · exact absurd (j4 i h i2) (not_lt.mpr (i3 j j1 j2))
  · exact h
  · exact absurd (i4 j h j2) (not_lt.mpr (j3 i i1 i2))

theorem round_of_of_none {D : Type} [LinearOrder D] (ent : Occurences → Nat → D)
    (s : SearchOf D) (h : (scan_of ent s).bestIndex = none) :
    round_of ent s = (Except.error Error.no_improvement,
      { s with bestEntropy := (scan_of ent s).bestEntropy,
               evaluated := (scan_of ent s).evaluated }) := by
  simp [round_of, h]

theorem round_of_of_some {D : Type} [LinearOrder D] (ent : Occurences → Nat → D)
    (s : SearchOf D) (i : Nat) (h : (scan_of ent s).bestIndex = some i) :
    round_of ent s = (Except.ok (),
      { dataset := { s.dataset with occurences := mark_outlier s.dataset i }
        outliers := insert i s.outliers
        bestEntropy := (scan_of ent s).bestEntropy
        evaluated := (scan_of ent s).evaluated }) := by
  simp [round_of, h]

/-- What one committed round changes, for any arithmetic of `entropy`. -/
theorem round_of_ok_facts {D : Type} [LinearOrder D] (ent : Occurences → Nat → D)
    (s t : SearchOf D) (h : round_of ent s = (Except.ok (), t)) :
    ∃ i, least_minimal_of ent s.dataset s.outliers i ∧
      t.outliers = insert i s.outliers ∧
      t.dataset.data = s.dataset.data ∧
      t.dataset.occurences = mark_outlier s.dataset i ∧
      t.bestEntropy = candidate_entropy_of ent s.dataset s.outliers i ∧
      t.bestEntropy < s.bestEntropy := by
  cases hb : (scan_of ent s).bestIndex with
  | none =>
    rw [round_of_of_none ent s hb] at h
    simp at h
  | some i =>
    rw [round_of_of_some ent s i hb] at h
    have ht := (Prod.mk.inj h).2
    obtain ⟨h1, h2, h3⟩ := scan_some_of ent s i hb
    subst ht
    exact ⟨i, h1, rfl, rfl, rfl, h2, by simp only; rw [h2]; exact h3⟩

/-- A call with `k = 1` that returns ran one committed round from the initial state. -/
theorem greedy_outliers_of_one_ok {D : Type} [LinearOrder D] (ent : Occurences → Nat → D)
    (dataset : Dataset) (o : OutcomeOf D) (R : ResultOf D)
    (hrun : greedy_outliers_of ent dataset 1 = some o) (hok : o.result = Except.ok R) :
    ∃ t, round_of ent (initial_search_of ent dataset) = (Except.ok (), t) ∧
      R.outliers = t.outliers := by
  unfold greedy_outliers_of greedy_outliers_fuel_of at hrun
  by_cases hk : 1 > dataset.data.length
  · rw [if_pos hk] at hrun
    cases hrun
    cases hok
  · rw [if_neg hk] at hrun
    have hcard : (initial_search_of ent dataset).outliers.card < 1 := by
      simp [initial_search_of]
    cases hb : (scan_of ent (initial_search_of ent dataset)).bestIndex with
    | none =>
      have hr := round_of_of_none ent _ hb
      simp [search_loop_of, hcard, hr] at hrun
      rw [← hrun] at hok
      cases hok
    | some i =>
      have hr := round_of_of_some ent _ i hb
      refine ⟨_, hr, ?_⟩
      have hc2 : ¬ (insert i (initial_search_of ent dataset).outliers).card < 1 := by
        simp [initial_search_of]
      simp [search_loop_of, hcard, hr, hc2] at hrun
      rw [← hrun] at hok
      simp only [Except.ok.injEq] at hok
      rw [← hok]

/-! ## The real-valued search is the open search at `entropy` -/

theorem scan_step_as_of (ds : Dataset) (O : Finset Nat) (sc : Scan) (j : Nat) :
    scan_step_of entropy ds O (scan_as_of sc) j = scan_as_of (scan_step ds O sc j) := by
  unfold scan_step_of scan_step
  by_cases hj : j ∈ O
  · simp [hj]
  · simp only [hj, if_false]
    by_cases hlt : entropy (mark_outlier ds j) (ds.data.length - O.card - 1) < sc.bestEntropy
    · have hlt2 : entropy (mark_outlier ds j) (ds.data.length - O.card - 1) <
          (scan_as_of sc).bestEntropy := hlt
      rw [if_pos hlt, if_pos hlt2]
      rfl
    · have hlt2 : ¬ entropy (mark_outlier ds j) (ds.data.length - O.card - 1) <
          (scan_as_of sc).bestEntropy := hlt
      rw [if_neg hlt, if_neg hlt2]
      rfl

theorem scan_foldl_as_of (ds : Dataset) (O : Finset Nat) (l : List Nat) :
    ∀ sc : Scan, l.foldl (scan_step_of entropy ds O) (scan_as_of sc) =
      scan_as_of (l.foldl (scan_step ds O) sc) := by
  induction l with
  | nil => intro sc; rfl
  | cons j l ih =>
    intro sc
    simp only [List.foldl_cons]
    rw [scan_step_as_of, ih]

theorem scan_as_of_eq (s : Search) : scan_of entropy (search_as_of s) = scan_as_of (scan s) := by
  unfold scan_of scan
  exact scan_foldl_as_of s.dataset s.outliers (List.range s.dataset.data.length)
    { bestEntropy := s.bestEntropy, bestIndex := none, evaluated := s.evaluated }

theorem round_as_of (s : Search) :
    round_of entropy (search_as_of s) = ((round s).1, search_as_of (round s).2) := by
  have hsc := scan_as_of_eq s
  cases hb : (scan s).bestIndex with
  | none =>
    have hb2 : (scan_of entropy (search_as_of s)).bestIndex = none := by rw [hsc]; exact hb
    rw [round_of_of_none entropy _ hb2, round_of_none s hb, hsc]
    rfl
  | some i =>
    have hb2 : (scan_of entropy (search_as_of s)).bestIndex = some i := by rw [hsc]; exact hb
    rw [round_of_of_some entropy _ i hb2, round_of_some s i hb, hsc]
    rfl

theorem search_loop_as_of (k : Nat) :
    ∀ (fuel : Nat) (s : Search),
      search_loop_of entropy k fuel (search_as_of s) = (search_loop k fuel s).map outcome_as_of := by
  intro fuel
  induction fuel with
  | zero =>
    intro s
    by_cases hlt : s.outliers.card < k
    · have hlt2 : (search_as_of s).outliers.card < k := hlt
      simp [search_loop_of, search_loop, hlt, hlt2]
    · have hlt2 : ¬ (search_as_of s).outliers.card < k := hlt
      simp [search_loop_of, search_loop, hlt, hlt2, outcome_as_of, search_as_of]
  | succ fuel ih =>
    intro s
    by_cases hlt : s.outliers.card < k
    · have hlt2 : (search_as_of s).outliers.card < k := hlt
      have hr := round_as_of s
      rcases round_cases s with ⟨u, hu⟩ | ⟨u, hu⟩
      · rw [hu] at hr
        simp only at hr
        have h1 : search_loop k (fuel + 1) s = search_loop k fuel u := by
          simp [search_loop, hlt, hu]
        have h2 : search_loop_of entropy k (fuel + 1) (search_as_of s) =
            search_loop_of entropy k fuel (search_as_of u) := by
          simp [search_loop_of, hlt2, hr]
        rw [h1, h2, ih u]
      · rw [hu] at hr
        simp only at hr
        have h1 : search_loop k (fuel + 1) s = some
            { result := Except.error Error.no_improvement, dataset := u.dataset,
              evaluated := u.evaluated } := by
          simp [search_loop, hlt, hu]
        have h2 : search_loop_of entropy k (fuel + 1) (search_as_of s) = some
            { result := Except.error Error.no_improvement, dataset := (search_as_of u).dataset,
              evaluated := (search_as_of u).evaluated } := by
          simp [search_loop_of, hlt2, hr]
        rw [h1, h2]
        rfl
    · have hlt2 : ¬ (search_as_of s).outliers.card < k := hlt
      simp [search_loop_of, search_loop, hlt, hlt2, outcome_as_of, search_as_of]

/-- The real-valued `greedy_outliers` is the open search at `ent := entropy`. -/
theorem greedy_outliers_as_of (dataset : Dataset) (k : Nat) :
    greedy_outliers_of entropy dataset k = (greedy_outliers dataset k).map outcome_as_of := by
  unfold greedy_outliers_of greedy_outliers_fuel_of greedy_outliers greedy_outliers_fuel
  by_cases hk : k > dataset.data.length
  · rw [if_pos hk, if_pos hk]
    rfl
  · rw [if_neg hk, if_neg hk]
    exact search_loop_as_of k k (initial_search dataset)

theorem scenario_run_of :
    greedy_outliers_of entropy scenario_dataset 1 = some (outcome_as_of scenario_outcome) := by
  rw [greedy_outliers_as_of, scenario_run]
  rfl

/-- C1: in every round of a call of `greedy_outliers` that commits a row, the
committed index `i` is outside `outliers`, its candidate entropy
`entropy(mark_outlier(dataset, i), n - |outliers| - 1)` is minimal over all rows
outside `outliers`, and every such row with a smaller index has a strictly
larger candidate entropy, so that `i` is the least index at the minimum.  For
`k = 1` on success, `outliers = {i}` for that index of the initial dataset.
The candidate entropies are the values that the code computes, whatever its
arithmetic: `ent` is any function into a linearly ordered type (such as the
doubles other than NaN), so a tie is a tie of the computed values. -/
theorem greedy_choice_least_index {D : Type} [LinearOrder D] (ent : Occurences → Nat → D)
    (dataset : Dataset) (k : Nat) (o : OutcomeOf D)
    (hrun : greedy_outliers_of ent dataset k = some o) :
    (∀ r s t, r < k → after_rounds_of ent dataset r = some s →
      round_of ent s = (Except.ok (), t) →
      ∃ i, least_minimal_of ent s.dataset s.outliers i ∧ t.outliers = insert i s.outliers ∧
        ∀ j, least_minimal_of ent s.dataset s.outliers j → j = i) ∧
    (∀ R, k = 1 → o.result = Except.ok R →
      ∃ i, least_minimal_of ent dataset ∅ i ∧ R.outliers = {i}) := by
  constructor
  · intro r s t _ _ hround
    obtain ⟨i, hmin, ho, _⟩ := round_of_ok_facts ent s t hround
    exact ⟨i, hmin, ho, fun j hj => least_minimal_unique_of hj hmin⟩
  · intro R hk hok
    subst hk
    obtain ⟨t, hround, hR⟩ := greedy_outliers_of_one_ok ent dataset o R hrun hok
    obtain ⟨i, hmin, ho, _⟩ := round_of_ok_facts ent _ t hround
    refine ⟨i, hmin, ?_⟩
    rw [hR, ho]
    rfl

/-- Scenario A with `k = 1` and the real-valued `entropy` (whose candidate
values `2`, `2`, `3` are exact in doubles): the run commits row `0`, the least
index at the minimum. -/
theorem greedy_choice_least_index_witness :
    greedy_outliers_of entropy scenario_dataset 1 = some (outcome_as_of scenario_outcome) ∧
      ∃ i, least_minimal_of entropy scenario_dataset ∅ i ∧ ({0} : Finset Nat) = {i} :=
  ⟨scenario_run_of,
    (greedy_choice_least_index entropy scenario_dataset 1 (outcome_as_of scenario_outcome)
      scenario_run_of).2 { outliers := {0}, entropy := 2 } rfl rfl⟩

/-! ## What the writer puts into the file -/

theorem intercalate_go_eq_foldl (sep : String) (l : List String) :
    ∀ acc : String, String.intercalate.go acc sep l = l.foldl (fun r x => r ++ sep ++ x) acc := by
  induction l with
  | nil => intro acc; rfl
  | cons a l ih =>
    intro acc
    simp only [String.intercalate.go, List.foldl_cons]
    exact ih _

theorem write_values_eq_intercalate (x : List String) :
    write_values x = String.intercalate "," x := by
  cases x with
  | nil => rfl
  | cons a l =>
    unfold write_values
    rw [write_values_foldl]
    simp only [if_true, String.append_empty, String.empty_append]
    rw [String.intercalate, intercalate_go_eq_foldl]

theorem mem_write_values (x : List String) :
    ∀ c ∈ (write_values x).data, c = ',' ∨ ∃ v ∈ x, c ∈ v.data := by
  induction x with
  | nil => intro c hc; simp [write_values_nil] at hc
  | cons a l ih =>
    cases l with
    | nil =>
      intro c hc
      rw [write_values_single] at hc
      exact Or.inr ⟨a, List.mem_singleton.mpr rfl, hc⟩
    | cons b l =>
      intro c hc
      rw [write_values_cons_cons] at hc
      simp only [String.data_append, List.mem_append] at hc
      rcases hc with (hc | hc) | hc
      · exact Or.inr ⟨a, List.mem_cons_self _ _, hc⟩
      · exact Or.inl (List.mem_singleton.mp hc)
      · rcases ih c hc with h | ⟨v, hv, hcv⟩
        · exact Or.inl h
        · exact Or.inr ⟨v, List.mem_cons_of_mem _ hv, hcv⟩

theorem getline_loop_line (delim : Char) (rest : List Char) :
    ∀ (l pending : List Char), delim ∉ l →
      getline_loop delim (l ++ delim :: rest) pending =
        String.mk (pending ++ l) :: getline_loop delim rest [] := by
  intro l
  induction l with
  | nil =>
    intro pending _
    simp [getline_loop]
  | cons c l ih =>
    intro pending hl
    have hc : c ≠ delim := fun h => hl (h ▸ List.mem_cons_self _ _)
    have hl2 : delim ∉ l := fun h => hl (List.mem_cons_of_mem _ h)
    have hstep : getline_loop delim ((c :: l) ++ delim :: rest) pending =
        getline_loop delim (l ++ delim :: rest) (pending ++ [c]) := by
      simp [getline_loop, hc]
    rw [hstep, ih (pending ++ [c]) hl2]
    simp

theorem getline_loop_lines (delim : Char) (lines : List String)
    (h : ∀ l ∈ lines, delim ∉ l.data) :
    getline_loop delim (String.join (lines.map (fun l => l ++ String.mk [delim]))).data [] =
      lines := by
  induction lines with
  | nil => rfl
  | cons l lines ih =>
    rw [List.map_cons, join_cons]
    simp only [String.data_append]
    rw [List.append_assoc]
    have hsingle : (String.mk [delim]).data ++
        (String.join (lines.map (fun l => l ++ String.mk [delim]))).data =
        delim :: (String.join (lines.map (fun l => l ++ String.mk [delim]))).data := rfl
    rw [hsingle, getline_loop_line delim _ l.data [] (h l (List.mem_cons_self _ _)),
      ih (fun x hx => h x (List.mem_cons_of_mem _ hx))]
    simp

/-- C12: `write_data` writes exactly the rows of `data` whose index is not in
`result.outliers`, each once and in their original order: the file is the
concatenation, in that order, of their values joined by commas, each followed
by a newline.  When the outliers are `k` distinct indices below `n`, these are
`n - k` rows; and when no value holds a newline, reading the file back line by
line gives exactly these `n - k` joined rows. -/
theorem write_data_emits_remaining (result : Result) (data : Data) (k : Nat)
    (hcard : result.outliers.card = k) (hlt : ∀ i ∈ result.outliers, i < data.length) :
    write_data result data =
      String.join ((remaining_rows data result.outliers).map
        (fun x => String.intercalate "," x ++ "\n")) ∧
    (remaining_rows data result.outliers).length = data.length - k ∧
    ((∀ row ∈ data, ∀ v ∈ row, '\n' ∉ v.data) →
      getlines '\n' (write_data result data) =
        (remaining_rows data result.outliers).map (String.intercalate ",") ∧
      (getlines '\n' (write_data result data)).length = data.length - k) := by
  have hlen : (remaining_rows data result.outliers).length = data.length - k := by
    rw [remaining_rows_length data result.outliers hlt, hcard]
  have hfile : write_data result data =
      String.join ((remaining_rows data result.outliers).map
        (fun x => String.intercalate "," x ++ "\n")) := by
    unfold write_data remaining_rows
    rw [write_data_loop_eq, String.empty_append]
    congr 1
    apply List.map_congr_left
    intro x _
    unfold write
    rw [write_values_eq_intercalate]
  refine ⟨hfile, hlen, ?_⟩
  intro hvalues
  have hrows : ∀ x ∈ remaining_rows data result.outliers, x ∈ data := by
    intro x hx
    unfold remaining_rows at hx
    obtain ⟨p, hp, rfl⟩ := List.mem_map.mp hx
    exact List.snd_mem_of_mem_enumFrom (List.mem_filter.mp hp).1
  have hlines : getlines '\n' (write_data result data) =
      (remaining_rows data result.outliers).map (String.intercalate ",") := by
    unfold getlines
    rw [hfile]
    have hmap : (remaining_rows data result.outliers).map
        (fun x => String.intercalate "," x ++ "\n") =
        ((remaining_rows data result.outliers).map (String.intercalate ",")).map
          (fun l => l ++ String.mk ['\n']) := by
      rw [List.map_map]
      rfl
    rw [hmap]
    apply getline_loop_lines
    intro l hl hmem
    obtain ⟨x, hx, rfl⟩ := List.mem_map.mp hl
    rw [← write_values_eq_intercalate] at hmem
    rcases mem_write_values x _ hmem with h | ⟨v, hv, hcv⟩
    · exact absurd h (by decide)
    · exact hvalues x (hrows x hx) v hv hcv
  refine ⟨hlines, ?_⟩
  rw [hlines, List.length_map, hlen]

/-- Scenario A with the outlier set `{0}`: rows `1` and `2` are written, as
the lines `0,1,b` and `0,2,c`. -/
theorem write_data_emits_remaining_witness :
    (({0} : Finset Nat).card = 1 ∧ ∀ i ∈ ({0} : Finset Nat), i < scenario_data.length) ∧
    write_data { outliers := {0}, entropy := 2 } scenario_data = "0,1,b\n0,2,c\n" :=
  ⟨⟨by decide, by decide⟩,
    (write_data_emits_remaining { outliers := {0}, entropy := 2 } scenario_data 1
      (by decide) (by decide)).1.trans (by decide)⟩

end GreedyOutlierEntropy
